import Mathlib

/-!
Verification of the cuCollections `static_map` / `static_multimap` core
(`static_map.inl`, `static_multimap.inl`) against its specification.

Keys and values are modelled as `Nat`; the slot array is a list of
`(key, value)` cells.  Device code is embedded as sequential functions:
a compare-and-swap by a single worker observes the actual cell contents.
Probing loops are fuel-bounded; `none` models the non-terminating walk of
a full table, exactly as the source's unbounded `while (true)` loop.
-/

namespace Cuco

/-- `insert_result` of `static_map::device_mutable_view` (static_map.inl). -/
inductive insert_result
  | SUCCESS
  | DUPLICATE
  | CONTINUE
  deriving DecidableEq

/-- The data carried by the device views of `static_map` (static_map.inl):
capacity and the two sentinels.  Keys and values are modelled as `Nat`. -/
structure device_view where
  capacity : Nat
  empty_key_sentinel : Nat
  empty_value_sentinel : Nat
  deriving DecidableEq

/-- The slot array: a list of `(key_cell, value_cell)` pairs. -/
abbrev Slots := List (Nat × Nat)

/-- The `(empty_key_sentinel, empty_value_sentinel)` pair marking an empty slot. -/
def empty_pair (v : device_view) : Nat × Nat :=
  (v.empty_key_sentinel, v.empty_value_sentinel)

/-- Contents of slot `i` (a relaxed load of `*current_slot` in the device code). -/
def slotAt (v : device_view) (s : Slots) (i : Nat) : Nat × Nat :=
  s.getD i (empty_pair v)

/-- Modelled from the spec: `detail::bitwise_compare` (the header is outside
this file tree) compares the stored bit patterns; on `Nat`-modelled keys this
is equality. -/
def bitwise_compare (a b : Nat) : Bool := a == b

/-- Modelled from the spec: the probe sequence's `initial_slot` (the probe
sequence headers are outside this file tree); linear probing derives
`h0 = hash(key) mod capacity`. -/
def initial_slot (v : device_view) (hash : Nat → Nat) (k : Nat) : Nat :=
  hash k % v.capacity

/-- Modelled from the spec: linear probing `next_slot`,
`h_{i+1} = (h_i + 1) mod capacity`. -/
def next_slot (v : device_view) (i : Nat) : Nat :=
  (i + 1) % v.capacity

/-- Modelled from the spec: `detail::initialize` writes the empty pair into
every slot; a prerequisite for any operation. -/
def init_slots (v : device_view) : Slots :=
  List.replicate v.capacity (empty_pair v)

/-- The default bitwise key equality (`thrust::equal_to` default of the API). -/
def default_key_equal (a b : Nat) : Bool := a == b

/-- `device_mutable_view::packed_cas` (static_map.inl): one compare-and-swap
of the whole slot with expected `(empty_key, empty_value)`; sequentially the
CAS observes the actual cell.  On failure the observed pair is compared with
the insert key under user equality. -/
def packed_cas (v : device_view) (s : Slots) (i : Nat) (insert_pair : Nat × Nat)
    (key_equal : Nat → Nat → Bool) : insert_result × Slots :=
  let observed := slotAt v s i
  if observed = empty_pair v then
    (insert_result.SUCCESS, s.set i insert_pair)
  else if key_equal insert_pair.1 observed.1 then
    (insert_result.DUPLICATE, s)
  else
    (insert_result.CONTINUE, s)

/-- The probing loop of `device_mutable_view::insert` (static_map.inl),
fuel-bounded (`none` = the source's infinite walk of a full table), using the
packed-CAS slot protocol (the packable case of the source's compile-time
dispatch).  Each iteration: load the key, check the sentinel bitwise, check a
duplicate under user equality, CAS if the slot is empty, else advance. -/
def insert_loop (v : device_view) (key_equal : Nat → Nat → Bool)
    (insert_pair : Nat × Nat) : Nat → Slots → Nat → Option Bool × Slots
  | 0, s, _ => (none, s)
  | fuel + 1, s, i =>
    let existing_key := (slotAt v s i).1
    let slot_is_empty := bitwise_compare existing_key v.empty_key_sentinel
    if !slot_is_empty && key_equal existing_key insert_pair.1 then
      (some false, s)
    else if slot_is_empty then
      match packed_cas v s i insert_pair key_equal with
      | (insert_result.SUCCESS, t) => (some true, t)
      | (insert_result.DUPLICATE, t) => (some false, t)
      | (insert_result.CONTINUE, t) =>
        insert_loop v key_equal insert_pair fuel t (next_slot v i)
    else
      insert_loop v key_equal insert_pair fuel s (next_slot v i)

/-- `device_mutable_view::insert`, entered at `initial_slot(key, hash)`; fuel
`capacity` is exact: a terminating probe terminates within one pass of the
cycle. -/
def device_insert (v : device_view) (hash : Nat → Nat)
    (key_equal : Nat → Nat → Bool) (insert_pair : Nat × Nat) (s : Slots) :
    Option Bool × Slots :=
  insert_loop v key_equal insert_pair v.capacity s
    (initial_slot v hash insert_pair.1)

/-- The probing loop of `device_view::find` (static_map.inl): stop with
`end()` (modelled `some none`) at the first empty slot, or with the slot index
at the first key match. -/
def find_loop (v : device_view) (key_equal : Nat → Nat → Bool) (k : Nat) :
    Nat → Slots → Nat → Option (Option Nat)
  | 0, _, _ => none
  | fuel + 1, s, i =>
    let existing_key := (slotAt v s i).1
    if bitwise_compare existing_key v.empty_key_sentinel then
      some none
    else if key_equal existing_key k then
      some (some i)
    else
      find_loop v key_equal k fuel s (next_slot v i)

/-- `device_view::find` entered at `initial_slot(k, hash)`. -/
def device_find (v : device_view) (hash : Nat → Nat)
    (key_equal : Nat → Nat → Bool) (k : Nat) (s : Slots) : Option (Option Nat) :=
  find_loop v key_equal k v.capacity s (initial_slot v hash k)

/-- The probing loop of `device_view::contains` (static_map.inl). -/
def contains_loop (v : device_view) (key_equal : Nat → Nat → Bool) (k : Nat) :
    Nat → Slots → Nat → Option Bool
  | 0, _, _ => none
  | fuel + 1, s, i =>
    let existing_key := (slotAt v s i).1
    if bitwise_compare existing_key v.empty_key_sentinel then
      some false
    else if key_equal existing_key k then
      some true
    else
      contains_loop v key_equal k fuel s (next_slot v i)

/-- `device_view::contains` entered at `initial_slot(k, hash)`. -/
def device_contains (v : device_view) (hash : Nat → Nat)
    (key_equal : Nat → Nat → Bool) (k : Nat) (s : Slots) : Option Bool :=
  contains_loop v key_equal k v.capacity s (initial_slot v hash k)

/-- The value-cell retry loop of `device_mutable_view::back_to_back_cas`
(static_map.inl): re-CAS with fresh expected `empty_value` until success.
The input list is the successive contents of the value cell observed at each
retry (concurrent interference as input); `none` = the loop is still running
when the observation schedule ends, `some w` = the loop exited after storing
`w` (the insert value). -/
def value_cas_loop (ev newVal : Nat) : List Nat → Option Nat
  | [] => none
  | w :: ws => if w = ev then some newVal else value_cas_loop ev newVal ws

/-- `device_mutable_view::back_to_back_cas` (static_map.inl): two independent
CASs on the key cell (expected `ek`) and value cell (expected `ev`).
Interference by concurrent workers is modelled by taking the cell contents
observed at each atomic operation as inputs: `k0` at the key CAS, `v0` at the
first value CAS, `vs` at the successive retry CASs of the
key-success/value-fail loop.  The result is the `insert_result` together with
the last value this worker wrote into the key cell and the value cell
(`none` = this worker never wrote that cell); outer `none` = the retry loop
never succeeded within the observation schedule. -/
def back_to_back_cas (ek ev : Nat) (insert_pair : Nat × Nat)
    (key_equal : Nat → Nat → Bool) (k0 v0 : Nat) (vs : List Nat) :
    Option (insert_result × Option Nat × Option Nat) :=
  let key_success := k0 = ek
  let value_success := v0 = ev
  if key_success then
    if value_success then
      some (insert_result.SUCCESS, some insert_pair.1, some insert_pair.2)
    else
      match value_cas_loop ev insert_pair.2 vs with
      | none => none
      | some w => some (insert_result.SUCCESS, some insert_pair.1, some w)
  else
    let value_write : Option Nat := if value_success then some ev else none
    if key_equal insert_pair.1 k0 then
      some (insert_result.DUPLICATE, none, value_write)
    else
      some (insert_result.CONTINUE, none, value_write)

/-- The CUDA driver calls a host bulk operation issues, in order
(the kernel launches, counter memset/copy, and stream synchronizations of
static_map.inl and static_multimap.inl). -/
inductive DevCmd
  | memsetCounter
  | kernelLaunch
  | memcpyCounter
  | streamSync
  deriving DecidableEq

/-- Driver calls of `static_map::insert` (static_map.inl): early return on an
empty range, else counter memset, kernel launch, counter copy-back and a
stream synchronization before accumulating into `size_`. -/
def static_map_insert_calls (num_keys : Nat) : List DevCmd :=
  if num_keys = 0 then []
  else [DevCmd.memsetCounter, DevCmd.kernelLaunch, DevCmd.memcpyCounter,
    DevCmd.streamSync]

/-- Driver calls of `static_map::insert_if` (static_map.inl): same shape as
`insert`. -/
def static_map_insert_if_calls (num_keys : Nat) : List DevCmd :=
  if num_keys = 0 then []
  else [DevCmd.memsetCounter, DevCmd.kernelLaunch, DevCmd.memcpyCounter,
    DevCmd.streamSync]

/-- Driver calls of `static_map::find` (static_map.inl): early return on an
empty range, else a kernel launch only — no synchronization. -/
def static_map_find_calls (num_keys : Nat) : List DevCmd :=
  if num_keys = 0 then [] else [DevCmd.kernelLaunch]

/-- Driver calls of `static_map::contains` (static_map.inl): early return on
an empty range, else a kernel launch only — no synchronization. -/
def static_map_contains_calls (num_keys : Nat) : List DevCmd :=
  if num_keys = 0 then [] else [DevCmd.kernelLaunch]

/-- Driver calls of `static_multimap::insert` (static_multimap.inl): no
empty-range check; a kernel launch followed by `cudaStreamSynchronize`. -/
def multimap_insert_calls (_num_keys : Nat) : List DevCmd :=
  [DevCmd.kernelLaunch, DevCmd.streamSync]

/-- Driver calls of `static_multimap::insert_if` (static_multimap.inl): no
empty-range check; kernel launch then stream synchronization. -/
def multimap_insert_if_calls (_num_elements : Nat) : List DevCmd :=
  [DevCmd.kernelLaunch, DevCmd.streamSync]

/-- Driver calls of `static_multimap::contains` (static_multimap.inl): no
empty-range check; kernel launch then stream synchronization. -/
def multimap_contains_calls (_num_keys : Nat) : List DevCmd :=
  [DevCmd.kernelLaunch, DevCmd.streamSync]

/-- Driver calls of `static_multimap::count` (static_multimap.inl): no
empty-range check; counter memset, kernel launch, counter copy-back, stream
synchronization. -/
def multimap_count_calls (_num_keys : Nat) : List DevCmd :=
  [DevCmd.memsetCounter, DevCmd.kernelLaunch, DevCmd.memcpyCounter,
    DevCmd.streamSync]

/-- Driver calls of `static_multimap::count_outer` (static_multimap.inl). -/
def multimap_count_outer_calls (_num_keys : Nat) : List DevCmd :=
  [DevCmd.memsetCounter, DevCmd.kernelLaunch, DevCmd.memcpyCounter,
    DevCmd.streamSync]

/-- Driver calls of `static_multimap::pair_count` (static_multimap.inl). -/
def multimap_pair_count_calls (_num_pairs : Nat) : List DevCmd :=
  [DevCmd.memsetCounter, DevCmd.kernelLaunch, DevCmd.memcpyCounter,
    DevCmd.streamSync]

/-- Driver calls of `static_multimap::pair_count_outer`
(static_multimap.inl). -/
def multimap_pair_count_outer_calls (_num_pairs : Nat) : List DevCmd :=
  [DevCmd.memsetCounter, DevCmd.kernelLaunch, DevCmd.memcpyCounter,
    DevCmd.streamSync]

/-- Driver calls of `static_multimap::retrieve` (static_multimap.inl). -/
def multimap_retrieve_calls (_num_keys : Nat) : List DevCmd :=
  [DevCmd.memsetCounter, DevCmd.kernelLaunch, DevCmd.memcpyCounter,
    DevCmd.streamSync]

/-- Driver calls of `static_multimap::retrieve_outer`
(static_multimap.inl). -/
def multimap_retrieve_outer_calls (_num_keys : Nat) : List DevCmd :=
  [DevCmd.memsetCounter, DevCmd.kernelLaunch, DevCmd.memcpyCounter,
    DevCmd.streamSync]

/-- Driver calls of `static_multimap::pair_retrieve`
(static_multimap.inl). -/
def multimap_pair_retrieve_calls (_num_pairs : Nat) : List DevCmd :=
  [DevCmd.memsetCounter, DevCmd.kernelLaunch, DevCmd.memcpyCounter,
    DevCmd.streamSync]

/-- Driver calls of `static_multimap::pair_retrieve_outer`
(static_multimap.inl). -/
def multimap_pair_retrieve_outer_calls (_num_pairs : Nat) : List DevCmd :=
  [DevCmd.memsetCounter, DevCmd.kernelLaunch, DevCmd.memcpyCounter,
    DevCmd.streamSync]

/-- `slot_is_filled` of static_multimap.inl: a slot is filled iff its key
differs from the empty-key sentinel (no user predicate involved). -/
def slot_is_filled (empty_key_sentinel : Nat) (k : Nat) : Bool :=
  k != empty_key_sentinel

/-- `static_multimap::get_size` (static_multimap.inl): a full scan counting
slots whose key passes `slot_is_filled`. -/
def multimap_get_size (empty_key_sentinel : Nat) (s : Slots) : Nat :=
  ((s.map Prod.fst).filter (slot_is_filled empty_key_sentinel)).length

/-- Modelled from the spec: the per-query match count of the multimap's
`detail::count` kernel (the kernel header is outside this file tree): the
number of filled slots whose key matches the query under user equality. -/
def count_single (empty_key_sentinel : Nat) (key_equal : Nat → Nat → Bool)
    (s : Slots) (q : Nat) : Nat :=
  (s.filter (fun p => slot_is_filled empty_key_sentinel p.1 && key_equal p.1 q)).length

/-- `static_multimap::count` (static_multimap.inl, `is_outer = false`): the
device counter accumulates the per-query match counts over the query range. -/
def multimap_count (empty_key_sentinel : Nat) (key_equal : Nat → Nat → Bool)
    (s : Slots) (qs : List Nat) : Nat :=
  (qs.map (count_single empty_key_sentinel key_equal s)).sum

/-- `static_multimap::count_outer` (static_multimap.inl, `is_outer = true`):
as `count`, but a query with zero matches contributes one (left-join
semantics, modelled from the spec for the kernel side). -/
def multimap_count_outer (empty_key_sentinel : Nat)
    (key_equal : Nat → Nat → Bool) (s : Slots) (qs : List Nat) : Nat :=
  (qs.map (fun q =>
    let c := count_single empty_key_sentinel key_equal s q
    if c = 0 then 1 else c)).sum

/-- The pair of output iterators returned by `static_multimap::pair_retrieve`
(static_multimap.inl): both begin iterators advanced by the one host-visible
match counter `h_counter`.  Iterators are modelled as `Nat` offsets; the
counter value produced by the kernel is a parameter. -/
def pair_retrieve_returns (probe_output_begin contained_output_begin
    h_counter : Nat) : Nat × Nat :=
  (probe_output_begin + h_counter, contained_output_begin + h_counter)

/-- The pair of output iterators returned by
`static_multimap::pair_retrieve_outer` (static_multimap.inl): same shape as
`pair_retrieve`. -/
def pair_retrieve_outer_returns (probe_output_begin contained_output_begin
    h_counter : Nat) : Nat × Nat :=
  (probe_output_begin + h_counter, contained_output_begin + h_counter)

/-- Host-side `static_map` state: the slot array and the host `size_` field
(static_map.inl).  Capacity and sentinels live in the view. -/
structure static_map where
  view : device_view
  slots_ : Slots
  size_ : Nat
  deriving DecidableEq

/-- The per-item work of the map's bulk-insert kernel over the input range
(the `detail::insert` kernel body is outside this file tree; modelled from
the spec: one `device_mutable_view::insert` per item, tallying SUCCESS
results into the device counter).  Returns the final slots and the counter
value; `none` if some per-item probe never terminates (full table). -/
def insert_all (v : device_view) (hash : Nat → Nat)
    (key_equal : Nat → Nat → Bool) : List (Nat × Nat) → Slots →
    Option (Slots × Nat)
  | [], s => some (s, 0)
  | p :: ps, s =>
    match device_insert v hash key_equal p s with
    | (none, _) => none
    | (some b, t) =>
      match insert_all v hash key_equal ps t with
      | none => none
      | some (u, n) => some (u, (if b then 1 else 0) + n)

/-- The per-item work of the map's `insert_if` kernel (the
`detail::insert_if_n` kernel body is outside this file tree; modelled from
the spec: only items whose stencil satisfies the predicate are inserted). -/
def insert_if_all (v : device_view) (hash : Nat → Nat)
    (key_equal : Nat → Nat → Bool) (pred : Nat → Bool) :
    List ((Nat × Nat) × Nat) → Slots → Option (Slots × Nat)
  | [], s => some (s, 0)
  | (p, st) :: ps, s =>
    if pred st then
      match device_insert v hash key_equal p s with
      | (none, _) => none
      | (some b, t) =>
        match insert_if_all v hash key_equal pred ps t with
        | none => none
        | some (u, n) => some (u, (if b then 1 else 0) + n)
    else
      insert_if_all v hash key_equal pred ps s

/-- Host `static_map::insert` (static_map.inl): early return on an empty
range; otherwise run the insert kernel, read the success counter back and
accumulate it into `size_`.  Returns the new map, the counter value read
back, and the driver calls issued. -/
def static_map_insert (m : static_map) (hash : Nat → Nat)
    (key_equal : Nat → Nat → Bool) (ps : List (Nat × Nat)) :
    Option (static_map × Nat × List DevCmd) :=
  if ps.length = 0 then some (m, 0, [])
  else
    match insert_all m.view hash key_equal ps m.slots_ with
    | none => none
    | some (s, n) =>
      some ({ m with slots_ := s, size_ := m.size_ + n }, n,
        static_map_insert_calls ps.length)

/-- Host `static_map::insert_if` (static_map.inl): as `insert`, with a
stencil and predicate. -/
def static_map_insert_if (m : static_map) (hash : Nat → Nat)
    (key_equal : Nat → Nat → Bool) (pred : Nat → Bool)
    (ps : List ((Nat × Nat) × Nat)) : Option (static_map × Nat × List DevCmd) :=
  if ps.length = 0 then some (m, 0, [])
  else
    match insert_if_all m.view hash key_equal pred ps m.slots_ with
    | none => none
    | some (s, n) =>
      some ({ m with slots_ := s, size_ := m.size_ + n }, n,
        static_map_insert_if_calls ps.length)

/-- The per-item outputs of the map's bulk `find` kernel (the `detail::find`
kernel body is outside this file tree; modelled from the spec: one output per
probed key, the found slot's value or `empty_value`). -/
def find_outputs (v : device_view) (hash : Nat → Nat)
    (key_equal : Nat → Nat → Bool) (s : Slots) : List Nat → Option (List Nat)
  | [] => some []
  | k :: ks =>
    match device_find v hash key_equal k s with
    | none => none
    | some r =>
      match find_outputs v hash key_equal s ks with
      | none => none
      | some os =>
        match r with
        | some i => some ((slotAt v s i).2 :: os)
        | none => some (v.empty_value_sentinel :: os)

/-- The per-item outputs of the map's bulk `contains` kernel (the
`detail::contains` kernel body is outside this file tree; modelled from the
spec: one bool per probed key). -/
def contains_outputs (v : device_view) (hash : Nat → Nat)
    (key_equal : Nat → Nat → Bool) (s : Slots) : List Nat → Option (List Bool)
  | [] => some []
  | k :: ks =>
    match device_contains v hash key_equal k s with
    | none => none
    | some b =>
      match contains_outputs v hash key_equal s ks with
      | none => none
      | some os => some (b :: os)

/-- Host `static_map::find` (static_map.inl): early return on an empty range;
otherwise launch the find kernel (no synchronization).  The map state is
untouched — the device code only loads slots; the outputs land in the
caller's range. -/
def static_map_find (m : static_map) (hash : Nat → Nat)
    (key_equal : Nat → Nat → Bool) (qs : List Nat) :
    Option (static_map × List Nat × List DevCmd) :=
  if qs.length = 0 then some (m, [], [])
  else
    match find_outputs m.view hash key_equal m.slots_ qs with
    | none => none
    | some os => some (m, os, static_map_find_calls qs.length)

/-- Host `static_map::contains` (static_map.inl): as `find`, outputs one bool
per probed key. -/
def static_map_contains (m : static_map) (hash : Nat → Nat)
    (key_equal : Nat → Nat → Bool) (qs : List Nat) :
    Option (static_map × List Bool × List DevCmd) :=
  if qs.length = 0 then some (m, [], [])
  else
    match contains_outputs m.view hash key_equal m.slots_ qs with
    | none => none
    | some os => some (m, os, static_map_contains_calls qs.length)

/-- One host bulk-insert call of the map: a plain batch or a predicated
(`insert_if`) batch. -/
inductive InsertBatch
  | plain (ps : List (Nat × Nat))
  | predicated (ps : List ((Nat × Nat) × Nat)) (pred : Nat → Bool)

/-- A sequence of host bulk inserts (static_map.inl `insert` / `insert_if`),
returning the final map and the per-call success counts read back from the
device counter. -/
def insert_batches (hash : Nat → Nat) (key_equal : Nat → Nat → Bool) :
    static_map → List InsertBatch → Option (static_map × List Nat)
  | m, [] => some (m, [])
  | m, InsertBatch.plain ps :: bs =>
    match static_map_insert m hash key_equal ps with
    | none => none
    | some (m1, n, _) =>
      match insert_batches hash key_equal m1 bs with
      | none => none
      | some (m2, ns) => some (m2, n :: ns)
  | m, InsertBatch.predicated ps pred :: bs =>
    match static_map_insert_if m hash key_equal pred ps with
    | none => none
    | some (m1, n, _) =>
      match insert_batches hash key_equal m1 bs with
      | none => none
      | some (m2, ns) => some (m2, n :: ns)

/-- The slot index reached after `j` linear-probing steps from start `i0`. -/
def walk (v : device_view) (i0 j : Nat) : Nat :=
  (i0 + j) % v.capacity

theorem walk_zero (v : device_view) (i0 : Nat) (h : i0 < v.capacity) :
    walk v i0 0 = i0 := by
  simp [walk, Nat.mod_eq_of_lt h]

theorem walk_lt (v : device_view) (i0 j : Nat) (h : 0 < v.capacity) :
    walk v i0 j < v.capacity :=
  Nat.mod_lt _ h

theorem next_slot_walk (v : device_view) (i0 j : Nat) :
    next_slot v (walk v i0 j) = walk v i0 (j + 1) := by
  simp [next_slot, walk, Nat.mod_add_mod, Nat.add_assoc]

theorem walk_shift (v : device_view) (i0 j : Nat) :
    walk v (i0 + 1) j = walk v i0 (j + 1) := by
  unfold walk
  congr 1
  omega

/-- Within one pass of the cycle, distinct step counts reach distinct slots. -/
theorem walk_inj (v : device_view) (i0 : Nat) {j1 j2 : Nat}
    (h1 : j1 < v.capacity) (h2 : j2 < v.capacity)
    (h : walk v i0 j1 = walk v i0 j2) : j1 = j2 := by
  have hmod : Nat.ModEq v.capacity (i0 + j1) (i0 + j2) := h
  have h3 := Nat.ModEq.add_left_cancel' i0 hmod
  have h4 : j1 % v.capacity = j2 % v.capacity := h3
  rwa [Nat.mod_eq_of_lt h1, Nat.mod_eq_of_lt h2] at h4

/-- One pass of the cycle visits every slot. -/
theorem walk_surj (v : device_view) (i0 e : Nat)
    (hi : i0 < v.capacity) (he : e < v.capacity) :
    ∃ j, j < v.capacity ∧ walk v i0 j = e := by
  by_cases hle : i0 ≤ e
  · refine ⟨e - i0, by omega, ?_⟩
    unfold walk
    have heq : i0 + (e - i0) = e := by omega
    rw [heq, Nat.mod_eq_of_lt he]
  · refine ⟨e + v.capacity - i0, by omega, ?_⟩
    unfold walk
    have heq : i0 + (e + v.capacity - i0) = e + v.capacity := by omega
    rw [heq, Nat.add_mod_right, Nat.mod_eq_of_lt he]

/-- `find_loop` returns the slot reached after `m` steps when that slot's key
matches and every earlier probed slot is occupied by a non-matching key. -/
theorem find_loop_hit (v : device_view) (keq : Nat → Nat → Bool) (k : Nat)
    (s : Slots) :
    ∀ (m i0 fuel : Nat), m < fuel →
      (∀ j, j < m → (slotAt v s (walk v i0 j)).1 ≠ v.empty_key_sentinel ∧
        keq (slotAt v s (walk v i0 j)).1 k = false) →
      (slotAt v s (walk v i0 m)).1 ≠ v.empty_key_sentinel →
      keq (slotAt v s (walk v i0 m)).1 k = true →
      find_loop v keq k fuel s (walk v i0 0) = some (some (walk v i0 m)) := by
  intro m
  induction m with
  | zero =>
    intro i0 fuel hf hpre hne hk
    obtain ⟨f, rfl⟩ : ∃ f, fuel = f + 1 := ⟨fuel - 1, by omega⟩
    rw [find_loop]
    have hb : bitwise_compare (slotAt v s (walk v i0 0)).1
        v.empty_key_sentinel = false := by
      simp [bitwise_compare, hne]
    simp [hb, hk]
  | succ m ih =>
    intro i0 fuel hf hpre hne hk
    obtain ⟨f, rfl⟩ : ∃ f, fuel = f + 1 := ⟨fuel - 1, by omega⟩
    rw [find_loop]
    have h0 := hpre 0 (Nat.succ_pos m)
    have hb : bitwise_compare (slotAt v s (walk v i0 0)).1
        v.empty_key_sentinel = false := by
      simp [bitwise_compare, h0.1]
    simp only [hb, Bool.false_eq_true, if_false, h0.2]
    rw [next_slot_walk]
    rw [show walk v i0 1 = walk v (i0 + 1) 0 from (walk_shift v i0 0).symm]
    rw [show walk v i0 (m + 1) = walk v (i0 + 1) m from (walk_shift v i0 m).symm]
    refine ih (i0 + 1) f (by omega) ?_ ?_ ?_
    · intro j hj
      rw [walk_shift]
      exact hpre (j + 1) (by omega)
    · rw [walk_shift]
      exact hne
    · rw [walk_shift]
      exact hk

/-- `find_loop` returns `end()` when the slot reached after `m` steps is
empty and every earlier probed slot is occupied by a non-matching key. -/
theorem find_loop_miss (v : device_view) (keq : Nat → Nat → Bool) (k : Nat)
    (s : Slots) :
    ∀ (m i0 fuel : Nat), m < fuel →
      (∀ j, j < m → (slotAt v s (walk v i0 j)).1 ≠ v.empty_key_sentinel ∧
        keq (slotAt v s (walk v i0 j)).1 k = false) →
      (slotAt v s (walk v i0 m)).1 = v.empty_key_sentinel →
      find_loop v keq k fuel s (walk v i0 0) = some none := by
  intro m
  induction m with
  | zero =>
    intro i0 fuel hf hpre hemp
    obtain ⟨f, rfl⟩ : ∃ f, fuel = f + 1 := ⟨fuel - 1, by omega⟩
    rw [find_loop]
    simp [bitwise_compare, hemp]
  | succ m ih =>
    intro i0 fuel hf hpre hemp
    obtain ⟨f, rfl⟩ : ∃ f, fuel = f + 1 := ⟨fuel - 1, by omega⟩
    rw [find_loop]
    have h0 := hpre 0 (Nat.succ_pos m)
    have hb : bitwise_compare (slotAt v s (walk v i0 0)).1
        v.empty_key_sentinel = false := by
      simp [bitwise_compare, h0.1]
    simp only [hb, Bool.false_eq_true, if_false, h0.2]
    rw [next_slot_walk]
    rw [show walk v i0 1 = walk v (i0 + 1) 0 from (walk_shift v i0 0).symm]
    refine ih (i0 + 1) f (by omega) ?_ ?_
    · intro j hj
      rw [walk_shift]
      exact hpre (j + 1) (by omega)
    · rw [walk_shift]
      exact hemp

/-- `contains_loop` returns `true` under the same conditions as a find hit. -/
theorem contains_loop_hit (v : device_view) (keq : Nat → Nat → Bool) (k : Nat)
    (s : Slots) :
    ∀ (m i0 fuel : Nat), m < fuel →
      (∀ j, j < m → (slotAt v s (walk v i0 j)).1 ≠ v.empty_key_sentinel ∧
        keq (slotAt v s (walk v i0 j)).1 k = false) →
      (slotAt v s (walk v i0 m)).1 ≠ v.empty_key_sentinel →
      keq (slotAt v s (walk v i0 m)).1 k = true →
      contains_loop v keq k fuel s (walk v i0 0) = some true := by
  intro m
  induction m with
  | zero =>
    intro i0 fuel hf hpre hne hk
    obtain ⟨f, rfl⟩ : ∃ f, fuel = f + 1 := ⟨fuel - 1, by omega⟩
    rw [contains_loop]
    have hb : bitwise_compare (slotAt v s (walk v i0 0)).1
        v.empty_key_sentinel = false := by
      simp [bitwise_compare, hne]
    simp [hb, hk]
  | succ m ih =>
    intro i0 fuel hf hpre hne hk
    obtain ⟨f, rfl⟩ : ∃ f, fuel = f + 1 := ⟨fuel - 1, by omega⟩
    rw [contains_loop]
    have h0 := hpre 0 (Nat.succ_pos m)
    have hb : bitwise_compare (slotAt v s (walk v i0 0)).1
        v.empty_key_sentinel = false := by
      simp [bitwise_compare, h0.1]
    simp only [hb, Bool.false_eq_true, if_false, h0.2]
    rw [next_slot_walk]
    rw [show walk v i0 1 = walk v (i0 + 1) 0 from (walk_shift v i0 0).symm]
    refine ih (i0 + 1) f (by omega) ?_ ?_ ?_
    · intro j hj
      rw [walk_shift]
      exact hpre (j + 1) (by omega)
    · rw [walk_shift]
      exact hne
    · rw [walk_shift]
      exact hk

/-- `contains_loop` returns `false` under the same conditions as a find
miss. -/
theorem contains_loop_miss (v : device_view) (keq : Nat → Nat → Bool) (k : Nat)
    (s : Slots) :
    ∀ (m i0 fuel : Nat), m < fuel →
      (∀ j, j < m → (slotAt v s (walk v i0 j)).1 ≠ v.empty_key_sentinel ∧
        keq (slotAt v s (walk v i0 j)).1 k = false) →
      (slotAt v s (walk v i0 m)).1 = v.empty_key_sentinel →
      contains_loop v keq k fuel s (walk v i0 0) = some false := by
  intro m
  induction m with
  | zero =>
    intro i0 fuel hf hpre hemp
    obtain ⟨f, rfl⟩ : ∃ f, fuel = f + 1 := ⟨fuel - 1, by omega⟩
    rw [contains_loop]
    simp [bitwise_compare, hemp]
  | succ m ih =>
    intro i0 fuel hf hpre hemp
    obtain ⟨f, rfl⟩ : ∃ f, fuel = f + 1 := ⟨fuel - 1, by omega⟩
    rw [contains_loop]
    have h0 := hpre 0 (Nat.succ_pos m)
    have hb : bitwise_compare (slotAt v s (walk v i0 0)).1
        v.empty_key_sentinel = false := by
      simp [bitwise_compare, h0.1]
    simp only [hb, Bool.false_eq_true, if_false, h0.2]
    rw [next_slot_walk]
    rw [show walk v i0 1 = walk v (i0 + 1) 0 from (walk_shift v i0 0).symm]
    refine ih (i0 + 1) f (by omega) ?_ ?_
    · intro j hj
      rw [walk_shift]
      exact hpre (j + 1) (by omega)
    · rw [walk_shift]
      exact hemp

/-- Reading a slot inside the array yields an element of the array. -/
theorem slotAt_mem (v : device_view) (s : Slots) (i : Nat) (h : i < s.length) :
    slotAt v s i ∈ s := by
  unfold slotAt
  rw [List.getD_eq_getElem s _ h]
  exact List.getElem_mem h

/-- Writing slot `i` is visible at slot `i`. -/
theorem slotAt_set_self (v : device_view) (s : Slots) (i : Nat) (p : Nat × Nat)
    (h : i < s.length) : slotAt v (s.set i p) i = p := by
  unfold slotAt
  rw [List.getD_eq_getElem _ _ (by simpa using h)]
  exact List.getElem_set_self (by simpa using h)

/-- Writing slot `i` leaves every other slot unchanged. -/
theorem slotAt_set_ne (v : device_view) (s : Slots) (i j : Nat) (p : Nat × Nat)
    (h : i ≠ j) : slotAt v (s.set i p) j = slotAt v s j := by
  unfold slotAt
  rw [List.getD_eq_getElem?_getD, List.getD_eq_getElem?_getD,
    List.getElem?_set_ne h]

/-- `insert_loop` claims the empty slot reached after `m` steps when every
earlier probed slot is occupied by a non-matching key: the CAS succeeds and
the loop returns `true` with the insert pair stored there. -/
theorem insert_loop_success (v : device_view) (keq : Nat → Nat → Bool)
    (p : Nat × Nat) (s : Slots) :
    ∀ (m i0 fuel : Nat), m < fuel →
      (∀ j, j < m → (slotAt v s (walk v i0 j)).1 ≠ v.empty_key_sentinel ∧
        keq (slotAt v s (walk v i0 j)).1 p.1 = false) →
      slotAt v s (walk v i0 m) = empty_pair v →
      insert_loop v keq p fuel s (walk v i0 0) =
        (some true, s.set (walk v i0 m) p) := by
  intro m
  induction m with
  | zero =>
    intro i0 fuel hf hpre hemp
    obtain ⟨f, rfl⟩ : ∃ f, fuel = f + 1 := ⟨fuel - 1, by omega⟩
    rw [insert_loop]
    have hb : bitwise_compare (slotAt v s (walk v i0 0)).1
        v.empty_key_sentinel = true := by
      simp [bitwise_compare, hemp, empty_pair]
    simp [hb, packed_cas, hemp, empty_pair, bitwise_compare]
  | succ m ih =>
    intro i0 fuel hf hpre hemp
    obtain ⟨f, rfl⟩ : ∃ f, fuel = f + 1 := ⟨fuel - 1, by omega⟩
    rw [insert_loop]
    have h0 := hpre 0 (Nat.succ_pos m)
    have hb : bitwise_compare (slotAt v s (walk v i0 0)).1
        v.empty_key_sentinel = false := by
      simp [bitwise_compare, h0.1]
    simp only [hb, Bool.not_false, Bool.true_and, h0.2, Bool.false_eq_true,
      if_false]
    rw [next_slot_walk]
    rw [show walk v i0 1 = walk v (i0 + 1) 0 from (walk_shift v i0 0).symm]
    rw [show walk v i0 (m + 1) = walk v (i0 + 1) m from (walk_shift v i0 m).symm]
    refine ih (i0 + 1) f (by omega) ?_ ?_
    · intro j hj
      rw [walk_shift]
      exact hpre (j + 1) (by omega)
    · rw [walk_shift]
      exact hemp

/-- `insert_loop` returns `false` (duplicate) and leaves the slots unchanged
when the slot reached after `m` steps is occupied by a matching key and every
earlier probed slot is occupied by a non-matching key. -/
theorem insert_loop_dup (v : device_view) (keq : Nat → Nat → Bool)
    (p : Nat × Nat) (s : Slots) :
    ∀ (m i0 fuel : Nat), m < fuel →
      (∀ j, j < m → (slotAt v s (walk v i0 j)).1 ≠ v.empty_key_sentinel ∧
        keq (slotAt v s (walk v i0 j)).1 p.1 = false) →
      (slotAt v s (walk v i0 m)).1 ≠ v.empty_key_sentinel →
      keq (slotAt v s (walk v i0 m)).1 p.1 = true →
      insert_loop v keq p fuel s (walk v i0 0) = (some false, s) := by
  intro m
  induction m with
  | zero =>
    intro i0 fuel hf hpre hne hk
    obtain ⟨f, rfl⟩ : ∃ f, fuel = f + 1 := ⟨fuel - 1, by omega⟩
    rw [insert_loop]
    have hb : bitwise_compare (slotAt v s (walk v i0 0)).1
        v.empty_key_sentinel = false := by
      simp [bitwise_compare, hne]
    simp [hb, hk]
  | succ m ih =>
    intro i0 fuel hf hpre hne hk
    obtain ⟨f, rfl⟩ : ∃ f, fuel = f + 1 := ⟨fuel - 1, by omega⟩
    rw [insert_loop]
    have h0 := hpre 0 (Nat.succ_pos m)
    have hb : bitwise_compare (slotAt v s (walk v i0 0)).1
        v.empty_key_sentinel = false := by
      simp [bitwise_compare, h0.1]
    simp only [hb, Bool.not_false, Bool.true_and, h0.2, Bool.false_eq_true,
      if_false]
    rw [next_slot_walk]
    rw [show walk v i0 1 = walk v (i0 + 1) 0 from (walk_shift v i0 0).symm]
    refine ih (i0 + 1) f (by omega) ?_ ?_ ?_
    · intro j hj
      rw [walk_shift]
      exact hpre (j + 1) (by omega)
    · rw [walk_shift]
      exact hne
    · rw [walk_shift]
      exact hk

/-- `insert_loop` runs out of fuel without modifying the slots when every
probed slot within the fuel bound is occupied by a non-matching key (the
source loops forever on a full table of other keys). -/
theorem insert_loop_exhaust (v : device_view) (keq : Nat → Nat → Bool)
    (p : Nat × Nat) (s : Slots) :
    ∀ (fuel i0 : Nat),
      (∀ j, j < fuel → (slotAt v s (walk v i0 j)).1 ≠ v.empty_key_sentinel ∧
        keq (slotAt v s (walk v i0 j)).1 p.1 = false) →
      insert_loop v keq p fuel s (walk v i0 0) = (none, s) := by
  intro fuel
  induction fuel with
  | zero =>
    intro i0 h
    rw [insert_loop]
  | succ f ih =>
    intro i0 h
    rw [insert_loop]
    have h0 := h 0 (Nat.succ_pos f)
    have hb : bitwise_compare (slotAt v s (walk v i0 0)).1
        v.empty_key_sentinel = false := by
      simp [bitwise_compare, h0.1]
    simp only [hb, Bool.not_false, Bool.true_and, h0.2, Bool.false_eq_true,
      if_false]
    rw [next_slot_walk]
    rw [show walk v i0 1 = walk v (i0 + 1) 0 from (walk_shift v i0 0).symm]
    refine ih (i0 + 1) ?_
    intro j hj
    rw [walk_shift]
    exact h (j + 1) (by omega)

/-- Complete case analysis of a sequential `device_mutable_view::insert`:
either it claims the first empty-or-matching slot of the probe sequence
(success with one slot written, or duplicate with nothing written), or no
such slot exists within one pass and the probe never terminates, leaving the
slots unchanged. -/
theorem device_insert_cases (v : device_view) (hash : Nat → Nat)
    (keq : Nat → Nat → Bool) (p : Nat × Nat) (s : Slots)
    (hpos : 0 < v.capacity) (hlen : s.length = v.capacity)
    (hwf : ∀ q ∈ s, q.1 = v.empty_key_sentinel → q = empty_pair v) :
    (∃ m, m < v.capacity ∧
      (∀ j, j < m →
        (slotAt v s (walk v (initial_slot v hash p.1) j)).1 ≠
          v.empty_key_sentinel ∧
        keq (slotAt v s (walk v (initial_slot v hash p.1) j)).1 p.1 = false) ∧
      slotAt v s (walk v (initial_slot v hash p.1) m) = empty_pair v ∧
      device_insert v hash keq p s =
        (some true, s.set (walk v (initial_slot v hash p.1) m) p)) ∨
    (∃ m, m < v.capacity ∧
      (∀ j, j < m →
        (slotAt v s (walk v (initial_slot v hash p.1) j)).1 ≠
          v.empty_key_sentinel ∧
        keq (slotAt v s (walk v (initial_slot v hash p.1) j)).1 p.1 = false) ∧
      (slotAt v s (walk v (initial_slot v hash p.1) m)).1 ≠
        v.empty_key_sentinel ∧
      keq (slotAt v s (walk v (initial_slot v hash p.1) m)).1 p.1 = true ∧
      device_insert v hash keq p s = (some false, s)) ∨
    ((∀ j, j < v.capacity →
        (slotAt v s (walk v (initial_slot v hash p.1) j)).1 ≠
          v.empty_key_sentinel ∧
        keq (slotAt v s (walk v (initial_slot v hash p.1) j)).1 p.1 = false) ∧
      device_insert v hash keq p s = (none, s)) := by
  have hi0lt : initial_slot v hash p.1 < v.capacity := Nat.mod_lt _ hpos
  have hstart : device_insert v hash keq p s =
      insert_loop v keq p v.capacity s (walk v (initial_slot v hash p.1) 0) := by
    rw [walk_zero v _ hi0lt]
    rfl
  by_cases H : ∃ j, j < v.capacity ∧
      ((slotAt v s (walk v (initial_slot v hash p.1) j)).1 =
        v.empty_key_sentinel ∨
        keq (slotAt v s (walk v (initial_slot v hash p.1) j)).1 p.1 = true)
  · obtain ⟨j0, hj0cap, hj0P⟩ := H
    have hex : ∃ j,
        (slotAt v s (walk v (initial_slot v hash p.1) j)).1 =
          v.empty_key_sentinel ∨
        keq (slotAt v s (walk v (initial_slot v hash p.1) j)).1 p.1 = true :=
      ⟨j0, hj0P⟩
    have hm := Nat.find_spec hex
    have hmle : Nat.find hex ≤ j0 := Nat.find_min' hex hj0P
    have hmcap : Nat.find hex < v.capacity := lt_of_le_of_lt hmle hj0cap
    have hpre : ∀ j, j < Nat.find hex →
        (slotAt v s (walk v (initial_slot v hash p.1) j)).1 ≠
          v.empty_key_sentinel ∧
        keq (slotAt v s (walk v (initial_slot v hash p.1) j)).1 p.1 = false := by
      intro j hj
      have hnot := Nat.find_min hex hj
      constructor
      · exact fun hc => hnot (Or.inl hc)
      · cases hkcase : keq (slotAt v s (walk v (initial_slot v hash p.1) j)).1
            p.1 with
        | true => exact absurd (Or.inr hkcase) hnot
        | false => rfl
    by_cases hek : (slotAt v s (walk v (initial_slot v hash p.1)
        (Nat.find hex))).1 = v.empty_key_sentinel
    · left
      have hmem : slotAt v s (walk v (initial_slot v hash p.1)
          (Nat.find hex)) ∈ s :=
        slotAt_mem v s _ (by rw [hlen]; exact walk_lt v _ _ hpos)
      have hemp := hwf _ hmem hek
      refine ⟨Nat.find hex, hmcap, hpre, hemp, ?_⟩
      rw [hstart]
      exact insert_loop_success v keq p s (Nat.find hex) _ v.capacity hmcap
        hpre hemp
    · right
      left
      have hkeq : keq (slotAt v s (walk v (initial_slot v hash p.1)
          (Nat.find hex))).1 p.1 = true := by
        rcases hm with hc | hc
        · exact absurd hc hek
        · exact hc
      refine ⟨Nat.find hex, hmcap, hpre, hek, hkeq, ?_⟩
      rw [hstart]
      exact insert_loop_dup v keq p s (Nat.find hex) _ v.capacity hmcap hpre
        hek hkeq
  · right
    right
    push_neg at H
    have hall : ∀ j, j < v.capacity →
        (slotAt v s (walk v (initial_slot v hash p.1) j)).1 ≠
          v.empty_key_sentinel ∧
        keq (slotAt v s (walk v (initial_slot v hash p.1) j)).1 p.1 = false := by
      intro j hj
      have hnot := H j hj
      constructor
      · exact hnot.1
      · cases hkcase : keq (slotAt v s (walk v (initial_slot v hash p.1) j)).1
            p.1 with
        | true => exact absurd hkcase hnot.2
        | false => rfl
    refine ⟨hall, ?_⟩
    rw [hstart]
    exact insert_loop_exhaust v keq p s v.capacity _ hall

/-- Reading a slot of the freshly initialized array yields the empty pair. -/
theorem slotAt_init (v : device_view) (i : Nat) (h : i < v.capacity) :
    slotAt v (init_slots v) i = empty_pair v := by
  unfold slotAt init_slots
  rw [List.getD_eq_getElem _ _ (by simpa using h)]
  simp

/-- The state invariant of the (sequential) map slots after processing the
insert list `ps` with the default bitwise key equality: the length is the
capacity, an empty key cell means a fully empty pair, every occupied slot
holds a processed pair, every occupied slot sits at the end of a probe-path
prefix free of empty slots and of its own key (the no-hole placement), and no
two distinct slots hold the same non-sentinel key. -/
structure map_inv (v : device_view) (hash : Nat → Nat)
    (ps : List (Nat × Nat)) (s : Slots) : Prop where
  hpos : 0 < v.capacity
  hlen : s.length = v.capacity
  hwf : ∀ q ∈ s, q.1 = v.empty_key_sentinel → q = empty_pair v
  hmem : ∀ q ∈ s, q.1 ≠ v.empty_key_sentinel → q ∈ ps
  hplaced : ∀ i, i < v.capacity → (slotAt v s i).1 ≠ v.empty_key_sentinel →
    ∃ m, m < v.capacity ∧
      walk v (initial_slot v hash (slotAt v s i).1) m = i ∧
      ∀ j, j < m →
        (slotAt v s (walk v (initial_slot v hash (slotAt v s i).1) j)).1 ≠
          v.empty_key_sentinel ∧
        (slotAt v s (walk v (initial_slot v hash (slotAt v s i).1) j)).1 ≠
          (slotAt v s i).1
  huniq : ∀ i1 i2, i1 < v.capacity → i2 < v.capacity →
    (slotAt v s i1).1 ≠ v.empty_key_sentinel →
    (slotAt v s i1).1 = (slotAt v s i2).1 → i1 = i2

/-- The invariant only mentions the processed list through membership, so it
is monotone in that list. -/
theorem map_inv_mono (v : device_view) (hash : Nat → Nat)
    (ps1 ps2 : List (Nat × Nat)) (s : Slots)
    (hsub : ∀ q ∈ ps1, q ∈ ps2) (inv : map_inv v hash ps1 s) :
    map_inv v hash ps2 s :=
  ⟨inv.hpos, inv.hlen, inv.hwf,
    fun q hq hne => hsub q (inv.hmem q hq hne), inv.hplaced, inv.huniq⟩

/-- The invariant holds for the freshly initialized slot array. -/
theorem map_inv_init (v : device_view) (hash : Nat → Nat)
    (hpos : 0 < v.capacity) : map_inv v hash [] (init_slots v) := by
  refine ⟨hpos, by simp [init_slots], ?_, ?_, ?_, ?_⟩
  · intro q hq _
    exact List.eq_of_mem_replicate hq
  · intro q hq hne
    have hq2 := List.eq_of_mem_replicate hq
    exact absurd (by rw [hq2]; rfl) hne
  · intro i hi hocc
    rw [slotAt_init v i hi] at hocc
    exact absurd rfl hocc
  · intro i1 i2 h1 h2 hocc
    rw [slotAt_init v i1 h1] at hocc
    exact absurd rfl hocc

/-- Preservation of `map_inv` across one terminating sequential device
insert of a pair with non-sentinel key. -/
theorem map_inv_step (v : device_view) (hash : Nat → Nat)
    (ps : List (Nat × Nat)) (s : Slots) (p : Nat × Nat)
    (hp : p.1 ≠ v.empty_key_sentinel) (inv : map_inv v hash ps s) :
    ∀ b t, device_insert v hash default_key_equal p s = (some b, t) →
      map_inv v hash (ps ++ [p]) t := by
  intro b t hdev
  rcases device_insert_cases v hash default_key_equal p s inv.hpos inv.hlen
      inv.hwf with
    ⟨m, hmcap, hpre, hemp, heq⟩ | ⟨m, hmcap, hpre, hne, hkeq, heq⟩ |
    ⟨hall, heq⟩
  · -- SUCCESS: one empty slot written with `p`
    rw [heq] at hdev
    obtain ⟨-, ht⟩ := Prod.mk.injEq .. ▸ hdev
    subst ht
    have hidxcap : walk v (initial_slot v hash p.1) m < v.capacity :=
      walk_lt v _ _ inv.hpos
    have hidxlen : walk v (initial_slot v hash p.1) m < s.length := by
      rw [inv.hlen]; exact hidxcap
    have hsetself :
        slotAt v (s.set (walk v (initial_slot v hash p.1) m) p)
          (walk v (initial_slot v hash p.1) m) = p :=
      slotAt_set_self v s _ p hidxlen
    have hsetne : ∀ j, j ≠ walk v (initial_slot v hash p.1) m →
        slotAt v (s.set (walk v (initial_slot v hash p.1) m) p) j =
          slotAt v s j := by
      intro j hj
      exact slotAt_set_ne v s _ j p (fun hc => hj hc.symm)
    have hfresh : ∀ i, i < v.capacity → (slotAt v s i).1 ≠ p.1 := by
      intro i hi hip
      have hocc : (slotAt v s i).1 ≠ v.empty_key_sentinel := by
        rw [hip]; exact hp
      obtain ⟨m2, hm2cap, hm2walk, hm2pre⟩ := inv.hplaced i hi hocc
      rw [hip] at hm2walk hm2pre
      rcases Nat.lt_trichotomy m m2 with hlt | heqm | hgt
      · have hcontra := (hm2pre m hlt).1
        rw [hemp] at hcontra
        exact hcontra rfl
      · subst heqm
        rw [hm2walk] at hemp
        rw [hemp] at hip
        simp only [empty_pair] at hip
        exact hp hip.symm
      · have hcontra := (hpre m2 hgt).2
        rw [hm2walk, hip] at hcontra
        simp [default_key_equal] at hcontra
    have hempkey : (slotAt v s (walk v (initial_slot v hash p.1) m)).1 =
        v.empty_key_sentinel := by
      rw [hemp]; rfl
    refine ⟨inv.hpos, by rw [List.length_set]; exact inv.hlen, ?_, ?_, ?_, ?_⟩
    · intro q hq hqek
      rcases List.mem_or_eq_of_mem_set hq with hmem2 | rfl
      · exact inv.hwf q hmem2 hqek
      · exact absurd hqek hp
    · intro q hq hqne
      rcases List.mem_or_eq_of_mem_set hq with hmem2 | rfl
      · exact List.mem_append_left _ (inv.hmem q hmem2 hqne)
      · exact List.mem_append_right _ (List.mem_singleton.mpr rfl)
    · intro i hi hocc
      by_cases hcase : i = walk v (initial_slot v hash p.1) m
      · subst hcase
        rw [hsetself]
        refine ⟨m, hmcap, rfl, ?_⟩
        intro j hj
        have hjne : walk v (initial_slot v hash p.1) j ≠
            walk v (initial_slot v hash p.1) m := by
          intro hc
          exact absurd (walk_inj v _ (lt_trans hj hmcap) hmcap hc) (by omega)
        rw [hsetne _ hjne]
        have hj2 := hpre j hj
        refine ⟨hj2.1, ?_⟩
        have := hj2.2
        simpa [default_key_equal] using this
      · rw [hsetne i hcase] at hocc ⊢
        obtain ⟨m2, hm2cap, hm2walk, hm2pre⟩ := inv.hplaced i hi hocc
        refine ⟨m2, hm2cap, hm2walk, ?_⟩
        intro j hj
        have hj2 := hm2pre j hj
        have hjne : walk v (initial_slot v hash (slotAt v s i).1) j ≠
            walk v (initial_slot v hash p.1) m := by
          intro hc
          have := hj2.1
          rw [hc, hempkey] at this
          exact this rfl
        rw [hsetne _ hjne]
        exact hj2
    · intro i1 i2 h1 h2 hocc hkey
      by_cases hc1 : i1 = walk v (initial_slot v hash p.1) m
      · by_cases hc2 : i2 = walk v (initial_slot v hash p.1) m
        · rw [hc1, hc2]
        · subst hc1
          rw [hsetself] at hkey
          rw [hsetne i2 hc2] at hkey
          exact absurd hkey.symm (hfresh i2 h2)
      · by_cases hc2 : i2 = walk v (initial_slot v hash p.1) m
        · subst hc2
          rw [hsetself] at hkey
          rw [hsetne i1 hc1] at hkey hocc
          exact absurd hkey (hfresh i1 h1)
        · rw [hsetne i1 hc1] at hkey hocc
          rw [hsetne i2 hc2] at hkey
          exact inv.huniq i1 i2 h1 h2 hocc hkey
  · -- DUPLICATE: nothing written
    rw [heq] at hdev
    obtain ⟨-, ht⟩ := Prod.mk.injEq .. ▸ hdev
    subst ht
    exact map_inv_mono v hash ps (ps ++ [p]) s
      (fun q hq => List.mem_append_left _ hq) inv
  · -- exhausted fuel: contradicts the `some` result
    rw [heq] at hdev
    obtain ⟨hb, -⟩ := Prod.mk.injEq .. ▸ hdev
    exact Option.noConfusion hb

/-- The invariant is carried through a whole bulk-insert item list. -/
theorem insert_all_inv (v : device_view) (hash : Nat → Nat) :
    ∀ (ps2 ps1 : List (Nat × Nat)) (s : Slots),
      map_inv v hash ps1 s →
      (∀ q ∈ ps2, q.1 ≠ v.empty_key_sentinel) →
      ∀ s2 n, insert_all v hash default_key_equal ps2 s = some (s2, n) →
        map_inv v hash (ps1 ++ ps2) s2 := by
  intro ps2
  induction ps2 with
  | nil =>
    intro ps1 s inv hk s2 n h
    simp only [insert_all, Option.some.injEq, Prod.mk.injEq] at h
    obtain ⟨h1, -⟩ := h
    subst h1
    simpa using inv
  | cons p ps ih =>
    intro ps1 s inv hk s2 n h
    rw [insert_all] at h
    split at h
    · exact Option.noConfusion h
    · rename_i b t hdev
      split at h
      · exact Option.noConfusion h
      · rename_i u n2 hrest
        simp only [Option.some.injEq, Prod.mk.injEq] at h
        obtain ⟨h1, -⟩ := h
        subst h1
        have hinvt := map_inv_step v hash ps1 s p
          (hk p (List.mem_cons_self p ps)) inv b t hdev
        have hfin := ih (ps1 ++ [p]) t hinvt
          (fun q hq => hk q (List.mem_cons_of_mem p hq)) u n2 hrest
        rwa [List.append_assoc, List.singleton_append] at hfin

/-- Claim C2: uniqueness invariant of the static map — after any sequence of
sequential inserts with arbitrarily repeated keys into an initialized map,
no two distinct slots hold equal non-sentinel keys (and since the insert
list is arbitrary, this holds after every prefix, i.e. at every point of the
map's lifetime). -/
theorem static_map_unique_keys (cap ek ev : Nat) (hash : Nat → Nat)
    (ps : List (Nat × Nat)) (hpos : 0 < cap)
    (hkeys : ∀ q ∈ ps, q.1 ≠ ek) (s2 : Slots) (n : Nat)
    (h : insert_all ⟨cap, ek, ev⟩ hash default_key_equal ps
      (init_slots ⟨cap, ek, ev⟩) = some (s2, n)) :
    ∀ i1 i2, i1 < cap → i2 < cap →
      (slotAt ⟨cap, ek, ev⟩ s2 i1).1 ≠ ek →
      (slotAt ⟨cap, ek, ev⟩ s2 i1).1 = (slotAt ⟨cap, ek, ev⟩ s2 i2).1 →
      i1 = i2 := by
  have hinit := map_inv_init ⟨cap, ek, ev⟩ hash hpos
  have hfin := insert_all_inv ⟨cap, ek, ev⟩ hash ps [] _ hinit hkeys s2 n h
  exact fun i1 i2 h1 h2 h3 h4 => hfin.huniq i1 i2 h1 h2 h3 h4

/-- Witness for C2: capacity 4, sentinels 0, identity hash, insert list
`[(1,5),(1,6),(2,7)]` with a duplicated key; the resulting slot array is
`[(0,0),(1,5),(2,7),(0,0)]` and its non-sentinel keys are pairwise
distinct. -/
theorem static_map_unique_keys_witness :
    insert_all ⟨4, 0, 0⟩ id default_key_equal [(1, 5), (1, 6), (2, 7)]
      (init_slots ⟨4, 0, 0⟩) = some ([(0, 0), (1, 5), (2, 7), (0, 0)], 2) ∧
    (∀ i1 i2, i1 < 4 → i2 < 4 →
      (slotAt ⟨4, 0, 0⟩ [(0, 0), (1, 5), (2, 7), (0, 0)] i1).1 ≠ 0 →
      (slotAt ⟨4, 0, 0⟩ [(0, 0), (1, 5), (2, 7), (0, 0)] i1).1 =
        (slotAt ⟨4, 0, 0⟩ [(0, 0), (1, 5), (2, 7), (0, 0)] i2).1 →
      i1 = i2) :=
  ⟨by decide,
    static_map_unique_keys 4 0 0 id [(1, 5), (1, 6), (2, 7)] (by decide)
      (by decide) [(0, 0), (1, 5), (2, 7), (0, 0)] 2 (by decide)⟩

/-- `default_key_equal` is plain equality on the modelled keys. -/
theorem default_key_equal_eq_true (a b : Nat) :
    default_key_equal a b = true ↔ a = b := by
  simp [default_key_equal]

/-- Negation form of `default_key_equal_eq_true`. -/
theorem default_key_equal_eq_false (a b : Nat) :
    default_key_equal a b = false ↔ a ≠ b := by
  simp [default_key_equal]

/-- The number of empty slots of the array. -/
def num_empty (v : device_view) (s : Slots) : Nat :=
  (s.filter (fun q => decide (q = empty_pair v))).length

theorem num_empty_cons (v : device_view) (a : Nat × Nat) (l : Slots) :
    num_empty v (a :: l) =
      (if a = empty_pair v then 1 else 0) + num_empty v l := by
  unfold num_empty
  by_cases h : a = empty_pair v <;> simp [List.filter_cons, h, Nat.add_comm]

theorem num_empty_init (v : device_view) :
    num_empty v (init_slots v) = v.capacity := by
  unfold init_slots
  generalize v.capacity = n
  induction n with
  | zero => rfl
  | succ n ih =>
    rw [List.replicate_succ, num_empty_cons, ih, if_pos rfl]
    omega

/-- Writing a non-empty pair over an empty slot removes exactly one empty
slot. -/
theorem num_empty_set (v : device_view) :
    ∀ (s : Slots) (i : Nat) (p : Nat × Nat), i < s.length →
      slotAt v s i = empty_pair v → p ≠ empty_pair v →
      num_empty v (s.set i p) + 1 = num_empty v s := by
  intro s
  induction s with
  | nil =>
    intro i p h
    simp at h
  | cons a rest ih =>
    intro i p hlen hemp hpne
    cases i with
    | zero =>
      have ha : a = empty_pair v := hemp
      simp only [List.set]
      rw [num_empty_cons, num_empty_cons, ha]
      simp [hpne]
      omega
    | succ j =>
      have hs : slotAt v (a :: rest) (j + 1) = slotAt v rest j := by
        simp [slotAt]
      rw [hs] at hemp
      have hlen2 : j < rest.length := by simpa using hlen
      have hrec := ih j p hlen2 hemp hpne
      simp only [List.set]
      rw [num_empty_cons, num_empty_cons]
      omega

/-- A positive empty count yields an empty slot. -/
theorem exists_empty_slot (v : device_view) (s : Slots)
    (h : 0 < num_empty v s) :
    ∃ i, i < s.length ∧ slotAt v s i = empty_pair v := by
  unfold num_empty at h
  obtain ⟨q, hq⟩ :=
    List.exists_mem_of_ne_nil _ (List.length_pos.mp h)
  obtain ⟨hmem, hdec⟩ := List.mem_filter.mp hq
  have hqe : q = empty_pair v := by simpa using hdec
  obtain ⟨i, hi, hgi⟩ := List.mem_iff_getElem.mp hmem
  refine ⟨i, hi, ?_⟩
  unfold slotAt
  rw [List.getD_eq_getElem _ _ hi, hgi, hqe]

/-- Extension of `map_inv` for distinct-key workloads: additionally, every
processed pair is present in some slot, and the number of empty slots is the
capacity minus the number of processed pairs. -/
structure map_inv1 (v : device_view) (hash : Nat → Nat)
    (ps : List (Nat × Nat)) (s : Slots) : Prop where
  base : map_inv v hash ps s
  hpresent : ∀ q ∈ ps, ∃ i, i < v.capacity ∧ slotAt v s i = q
  hcount : ps.length + num_empty v s = v.capacity

/-- The extended invariant holds initially. -/
theorem map_inv1_init (v : device_view) (hash : Nat → Nat)
    (hpos : 0 < v.capacity) : map_inv1 v hash [] (init_slots v) := by
  refine ⟨map_inv_init v hash hpos, ?_, ?_⟩
  · intro q hq
    cases hq
  · simp [num_empty_init]

/-- One device insert of a fresh non-sentinel key into a map with room
succeeds and preserves the extended invariant. -/
theorem map_inv1_step (v : device_view) (hash : Nat → Nat)
    (ps : List (Nat × Nat)) (s : Slots) (p : Nat × Nat)
    (hp : p.1 ≠ v.empty_key_sentinel)
    (hkeys : ∀ q ∈ ps, q.1 ≠ v.empty_key_sentinel)
    (hnotin : p.1 ∉ ps.map Prod.fst)
    (hroom : ps.length < v.capacity)
    (inv : map_inv1 v hash ps s) :
    ∃ t, device_insert v hash default_key_equal p s = (some true, t) ∧
      map_inv1 v hash (ps ++ [p]) t := by
  have hpos := inv.base.hpos
  have hlen := inv.base.hlen
  have hnoslot : ∀ i, i < v.capacity → (slotAt v s i).1 ≠ p.1 := by
    intro i hi hcontra
    by_cases hocc : (slotAt v s i).1 = v.empty_key_sentinel
    · rw [hcontra] at hocc
      exact hp hocc
    · have hmem := inv.base.hmem (slotAt v s i)
        (slotAt_mem v s i (by rw [hlen]; exact hi)) hocc
      have : p.1 ∈ ps.map Prod.fst := by
        rw [← hcontra]
        exact List.mem_map_of_mem Prod.fst hmem
      exact hnotin this
  have hne0 : 0 < num_empty v s := by
    have := inv.hcount
    omega
  obtain ⟨e, helen, hemp_e⟩ := exists_empty_slot v s hne0
  have hecap : e < v.capacity := by rwa [hlen] at helen
  have hi0 : initial_slot v hash p.1 < v.capacity := Nat.mod_lt _ hpos
  obtain ⟨j, hjcap, hjwalk⟩ := walk_surj v (initial_slot v hash p.1) e hi0 hecap
  rcases device_insert_cases v hash default_key_equal p s hpos hlen
      inv.base.hwf with
    ⟨m, hmcap, hpre, hemp, heq⟩ | ⟨m, hmcap, hpre, hne, hkeq, heq⟩ |
    ⟨hall, heq⟩
  · -- SUCCESS
    refine ⟨s.set (walk v (initial_slot v hash p.1) m) p, heq, ?_⟩
    have hinvt := map_inv_step v hash ps s p hp inv.base true _ heq
    have hidxlen : walk v (initial_slot v hash p.1) m < s.length := by
      rw [hlen]; exact walk_lt v _ _ hpos
    have hpne : p ≠ empty_pair v := by
      intro hc
      apply hp
      rw [hc]
      rfl
    refine ⟨hinvt, ?_, ?_⟩
    · intro q hq
      rcases List.mem_append.mp hq with hq1 | hq1
      · obtain ⟨i, hi, hslot⟩ := inv.hpresent q hq1
        have hocc : (slotAt v s i).1 ≠ v.empty_key_sentinel := by
          rw [hslot]
          exact hkeys q hq1
        have hine : i ≠ walk v (initial_slot v hash p.1) m := by
          intro hc
          rw [hc, hemp] at hocc
          exact hocc rfl
        refine ⟨i, hi, ?_⟩
        rw [slotAt_set_ne v s _ i p (fun hc => hine hc.symm)]
        exact hslot
      · have hq2 := List.mem_singleton.mp hq1
        rw [hq2]
        exact ⟨walk v (initial_slot v hash p.1) m, walk_lt v _ _ hpos,
          slotAt_set_self v s _ p hidxlen⟩
    · have hdrop := num_empty_set v s (walk v (initial_slot v hash p.1) m) p
        hidxlen hemp hpne
      have hc := inv.hcount
      simp only [List.length_append, List.length_singleton]
      omega
  · -- DUPLICATE: impossible, the key is fresh
    exfalso
    have hkey := (default_key_equal_eq_true _ _).mp hkeq
    exact hnoslot _ (walk_lt v _ _ hpos) hkey
  · -- exhaustion: impossible, an empty slot is reachable
    exfalso
    have := (hall j hjcap).1
    rw [hjwalk, hemp_e] at this
    exact this rfl

/-- The extended invariant and termination carry through a distinct-key bulk
insert list. -/
theorem insert_all_inv1 (v : device_view) (hash : Nat → Nat) :
    ∀ (ps2 ps1 : List (Nat × Nat)) (s : Slots),
      map_inv1 v hash ps1 s →
      ((ps1 ++ ps2).map Prod.fst).Nodup →
      (∀ q ∈ ps1 ++ ps2, q.1 ≠ v.empty_key_sentinel) →
      (ps1 ++ ps2).length < v.capacity →
      ∃ s2 n, insert_all v hash default_key_equal ps2 s = some (s2, n) ∧
        map_inv1 v hash (ps1 ++ ps2) s2 := by
  intro ps2
  induction ps2 with
  | nil =>
    intro ps1 s inv hnodup hkeys hlt
    exact ⟨s, 0, rfl, by simpa using inv⟩
  | cons p ps ih =>
    intro ps1 s inv hnodup hkeys hlt
    have hp : p.1 ≠ v.empty_key_sentinel :=
      hkeys p (List.mem_append_right _ (List.mem_cons_self p ps))
    have hkeys1 : ∀ q ∈ ps1, q.1 ≠ v.empty_key_sentinel := fun q hq =>
      hkeys q (List.mem_append_left _ hq)
    have hnotin : p.1 ∉ ps1.map Prod.fst := by
      rw [List.map_append] at hnodup
      have hdisj := (List.nodup_append.mp hnodup).2.2
      intro hc
      exact hdisj hc (by simp)
    have hroom : ps1.length < v.capacity := by
      have := hlt
      simp only [List.length_append, List.length_cons] at this
      omega
    obtain ⟨t, hdev, hinvt⟩ :=
      map_inv1_step v hash ps1 s p hp hkeys1 hnotin hroom inv
    have hshift1 : ((ps1 ++ [p]) ++ ps) = ps1 ++ p :: ps := by
      rw [List.append_assoc, List.singleton_append]
    obtain ⟨s2, n2, hrest, hinv2⟩ := ih (ps1 ++ [p]) t hinvt
      (by rwa [hshift1]) (by rw [hshift1]; exact hkeys)
      (by rw [hshift1]; exact hlt)
    refine ⟨s2, 1 + n2, ?_, by rwa [hshift1] at hinv2⟩
    simp [insert_all, hdev, hrest]

/-- Claim C1: round-trip of insert with find/contains — inserting any list of
pairs with distinct non-sentinel keys into an initialized map of sufficient
capacity terminates, and afterwards `find` on each inserted key returns the
slot containing exactly its inserted pair with `contains` true, while `find`
on any key never inserted returns `end()` (`some none`) with `contains`
false. -/
theorem static_map_round_trip (cap ek ev : Nat) (hash : Nat → Nat)
    (ps : List (Nat × Nat)) (hcap : ps.length < cap)
    (hnodup : (ps.map Prod.fst).Nodup)
    (hek : ∀ q ∈ ps, q.1 ≠ ek) :
    ∃ s2 n,
      insert_all ⟨cap, ek, ev⟩ hash default_key_equal ps
        (init_slots ⟨cap, ek, ev⟩) = some (s2, n) ∧
      (∀ q ∈ ps, ∃ i, i < cap ∧ slotAt ⟨cap, ek, ev⟩ s2 i = q ∧
        device_find ⟨cap, ek, ev⟩ hash default_key_equal q.1 s2 =
          some (some i) ∧
        device_contains ⟨cap, ek, ev⟩ hash default_key_equal q.1 s2 =
          some true) ∧
      (∀ k, k ∉ ps.map Prod.fst → k ≠ ek →
        device_find ⟨cap, ek, ev⟩ hash default_key_equal k s2 = some none ∧
        device_contains ⟨cap, ek, ev⟩ hash default_key_equal k s2 =
          some false) := by
  have hpos : 0 < cap := by omega
  obtain ⟨s2, n, heq, hinv⟩ := insert_all_inv1 ⟨cap, ek, ev⟩ hash ps []
    (init_slots ⟨cap, ek, ev⟩) (map_inv1_init ⟨cap, ek, ev⟩ hash hpos)
    (by simpa using hnodup) (by simpa using hek) (by simpa using hcap)
  rw [List.nil_append] at hinv
  have hlen2 : s2.length = cap := hinv.base.hlen
  refine ⟨s2, n, heq, ?_, ?_⟩
  · intro q hq
    have hqek : q.1 ≠ ek := hek q hq
    obtain ⟨i, hi, hslot⟩ := hinv.hpresent q hq
    have hocc : (slotAt ⟨cap, ek, ev⟩ s2 i).1 ≠ ek := by
      rw [hslot]; exact hqek
    obtain ⟨m, hmcap, hwalk, hpre⟩ := hinv.base.hplaced i hi hocc
    rw [hslot] at hwalk hpre
    have hi0 : initial_slot ⟨cap, ek, ev⟩ hash q.1 < cap :=
      Nat.mod_lt _ hpos
    have hhitne : (slotAt ⟨cap, ek, ev⟩ s2
        (walk ⟨cap, ek, ev⟩ (initial_slot ⟨cap, ek, ev⟩ hash q.1) m)).1 ≠
        ek := by
      rw [hwalk, hslot]
      exact hqek
    have hhit : default_key_equal (slotAt ⟨cap, ek, ev⟩ s2
        (walk ⟨cap, ek, ev⟩ (initial_slot ⟨cap, ek, ev⟩ hash q.1) m)).1 q.1 =
        true := by
      rw [hwalk, hslot]
      simp [default_key_equal]
    have hpre2 : ∀ j, j < m →
        (slotAt ⟨cap, ek, ev⟩ s2
          (walk ⟨cap, ek, ev⟩ (initial_slot ⟨cap, ek, ev⟩ hash q.1) j)).1 ≠
          ek ∧
        default_key_equal (slotAt ⟨cap, ek, ev⟩ s2
          (walk ⟨cap, ek, ev⟩ (initial_slot ⟨cap, ek, ev⟩ hash q.1) j)).1
          q.1 = false := by
      intro j hj
      exact ⟨(hpre j hj).1,
        (default_key_equal_eq_false _ _).mpr (hpre j hj).2⟩
    have hfind : device_find ⟨cap, ek, ev⟩ hash default_key_equal q.1 s2 =
        some (some (walk ⟨cap, ek, ev⟩
          (initial_slot ⟨cap, ek, ev⟩ hash q.1) m)) := by
      have hstart : device_find ⟨cap, ek, ev⟩ hash default_key_equal q.1 s2 =
          find_loop ⟨cap, ek, ev⟩ default_key_equal q.1 cap s2
            (walk ⟨cap, ek, ev⟩ (initial_slot ⟨cap, ek, ev⟩ hash q.1) 0) := by
        rw [walk_zero _ _ hi0]
        rfl
      rw [hstart]
      exact find_loop_hit _ default_key_equal q.1 s2 m _ cap hmcap hpre2
        hhitne hhit
    have hcont : device_contains ⟨cap, ek, ev⟩ hash default_key_equal q.1
        s2 = some true := by
      have hstart : device_contains ⟨cap, ek, ev⟩ hash default_key_equal q.1
          s2 = contains_loop ⟨cap, ek, ev⟩ default_key_equal q.1 cap s2
            (walk ⟨cap, ek, ev⟩ (initial_slot ⟨cap, ek, ev⟩ hash q.1) 0) := by
        rw [walk_zero _ _ hi0]
        rfl
      rw [hstart]
      exact contains_loop_hit _ default_key_equal q.1 s2 m _ cap hmcap hpre2
        hhitne hhit
    rw [hwalk] at hfind
    exact ⟨i, hi, hslot, hfind, hcont⟩
  · intro k hk hkek
    have hne0 : 0 < num_empty ⟨cap, ek, ev⟩ s2 := by
      have hcnt := hinv.hcount
      dsimp only at hcnt
      omega
    obtain ⟨e, helen, hemp_e⟩ := exists_empty_slot _ s2 hne0
    have hecap : e < cap := by rwa [hlen2] at helen
    have hi0 : initial_slot ⟨cap, ek, ev⟩ hash k < cap := Nat.mod_lt _ hpos
    obtain ⟨j, hjcap, hjwalk⟩ :=
      walk_surj ⟨cap, ek, ev⟩ (initial_slot ⟨cap, ek, ev⟩ hash k) e hi0 hecap
    have hex : ∃ j2, (slotAt ⟨cap, ek, ev⟩ s2
        (walk ⟨cap, ek, ev⟩ (initial_slot ⟨cap, ek, ev⟩ hash k) j2)).1 =
        ek := ⟨j, by rw [hjwalk, hemp_e]; rfl⟩
    have hm := Nat.find_spec hex
    have hmlt : Nat.find hex < cap :=
      lt_of_le_of_lt (Nat.find_min' hex (by rw [hjwalk, hemp_e]; rfl)) hjcap
    have hpre2 : ∀ j2, j2 < Nat.find hex →
        (slotAt ⟨cap, ek, ev⟩ s2
          (walk ⟨cap, ek, ev⟩ (initial_slot ⟨cap, ek, ev⟩ hash k) j2)).1 ≠
          ek ∧
        default_key_equal (slotAt ⟨cap, ek, ev⟩ s2
          (walk ⟨cap, ek, ev⟩ (initial_slot ⟨cap, ek, ev⟩ hash k) j2)).1 k =
          false := by
      intro j2 hj2
      have hnot := Nat.find_min hex hj2
      refine ⟨hnot, (default_key_equal_eq_false _ _).mpr ?_⟩
      intro hc
      have hmem := hinv.base.hmem _
        (slotAt_mem _ s2 _ (by rw [hlen2]; exact walk_lt _ _ _ hpos)) hnot
      apply hk
      rw [← hc]
      exact List.mem_map_of_mem Prod.fst hmem
    constructor
    · have hstart : device_find ⟨cap, ek, ev⟩ hash default_key_equal k s2 =
          find_loop ⟨cap, ek, ev⟩ default_key_equal k cap s2
            (walk ⟨cap, ek, ev⟩ (initial_slot ⟨cap, ek, ev⟩ hash k) 0) := by
        rw [walk_zero _ _ hi0]
        rfl
      rw [hstart]
      exact find_loop_miss _ default_key_equal k s2 (Nat.find hex) _ cap hmlt
        hpre2 hm
    · have hstart : device_contains ⟨cap, ek, ev⟩ hash default_key_equal k
          s2 = contains_loop ⟨cap, ek, ev⟩ default_key_equal k cap s2
            (walk ⟨cap, ek, ev⟩ (initial_slot ⟨cap, ek, ev⟩ hash k) 0) := by
        rw [walk_zero _ _ hi0]
        rfl
      rw [hstart]
      exact contains_loop_miss _ default_key_equal k s2 (Nat.find hex) _ cap
        hmlt hpre2 hm

/-- Witness for C1: capacity 3, sentinels 0, identity hash, inserting
`[(1,10),(2,20)]`; the hypotheses hold and the round-trip conclusion is
obtained by applying the theorem. -/
theorem static_map_round_trip_witness :
    ([(1, 10), (2, 20)] : List (Nat × Nat)).length < 3 ∧
    (([(1, 10), (2, 20)] : List (Nat × Nat)).map Prod.fst).Nodup ∧
    (∀ q ∈ ([(1, 10), (2, 20)] : List (Nat × Nat)), q.1 ≠ 0) ∧
    (∃ s2 n,
      insert_all ⟨3, 0, 0⟩ id default_key_equal [(1, 10), (2, 20)]
        (init_slots ⟨3, 0, 0⟩) = some (s2, n) ∧
      (∀ q ∈ ([(1, 10), (2, 20)] : List (Nat × Nat)),
        ∃ i, i < 3 ∧ slotAt ⟨3, 0, 0⟩ s2 i = q ∧
        device_find ⟨3, 0, 0⟩ id default_key_equal q.1 s2 = some (some i) ∧
        device_contains ⟨3, 0, 0⟩ id default_key_equal q.1 s2 = some true) ∧
      (∀ k, k ∉ ([(1, 10), (2, 20)] : List (Nat × Nat)).map Prod.fst →
        k ≠ 0 →
        device_find ⟨3, 0, 0⟩ id default_key_equal k s2 = some none ∧
        device_contains ⟨3, 0, 0⟩ id default_key_equal k s2 = some false)) :=
  ⟨by decide, by decide, by decide,
    static_map_round_trip 3 0 0 id [(1, 10), (2, 20)] (by decide) (by decide)
      (by decide)⟩

/-- Reading past the end of the array yields the empty pair (never happens
for in-range probing; stated for completeness of `slotAt`). -/
theorem slotAt_oob (v : device_view) (s : Slots) (i : Nat)
    (h : s.length ≤ i) : slotAt v s i = empty_pair v := by
  unfold slotAt
  rw [List.getD_eq_getElem?_getD, List.getElem?_eq_none h]
  rfl

/-- `find_loop` applies the user predicate only to non-sentinel stored keys
and the query key, so two predicates agreeing away from the sentinel are
indistinguishable. -/
theorem find_loop_keq_agree (v : device_view) (eq1 eq2 : Nat → Nat → Bool)
    (k : Nat) (s : Slots) (hk : k ≠ v.empty_key_sentinel)
    (hagree : ∀ a b, a ≠ v.empty_key_sentinel → b ≠ v.empty_key_sentinel →
      eq1 a b = eq2 a b) :
    ∀ (fuel i : Nat),
      find_loop v eq1 k fuel s i = find_loop v eq2 k fuel s i := by
  intro fuel
  induction fuel with
  | zero => intro i; rfl
  | succ f ih =>
    intro i
    rw [find_loop, find_loop]
    by_cases hemp : (slotAt v s i).1 = v.empty_key_sentinel
    · simp [bitwise_compare, hemp]
    · have hb : bitwise_compare (slotAt v s i).1 v.empty_key_sentinel =
          false := by
        simp [bitwise_compare, hemp]
      rw [hagree _ _ hemp hk]
      simp only [hb, Bool.false_eq_true, if_false]
      by_cases hkq : eq2 (slotAt v s i).1 k
      · simp [hkq]
      · simp only [Bool.not_eq_true] at hkq
        simp [hkq, ih]

/-- `contains_loop` analogue of `find_loop_keq_agree`. -/
theorem contains_loop_keq_agree (v : device_view) (eq1 eq2 : Nat → Nat → Bool)
    (k : Nat) (s : Slots) (hk : k ≠ v.empty_key_sentinel)
    (hagree : ∀ a b, a ≠ v.empty_key_sentinel → b ≠ v.empty_key_sentinel →
      eq1 a b = eq2 a b) :
    ∀ (fuel i : Nat),
      contains_loop v eq1 k fuel s i = contains_loop v eq2 k fuel s i := by
  intro fuel
  induction fuel with
  | zero => intro i; rfl
  | succ f ih =>
    intro i
    rw [contains_loop, contains_loop]
    by_cases hemp : (slotAt v s i).1 = v.empty_key_sentinel
    · simp [bitwise_compare, hemp]
    · have hb : bitwise_compare (slotAt v s i).1 v.empty_key_sentinel =
          false := by
        simp [bitwise_compare, hemp]
      rw [hagree _ _ hemp hk]
      simp only [hb, Bool.false_eq_true, if_false]
      by_cases hkq : eq2 (slotAt v s i).1 k
      · simp [hkq]
      · simp only [Bool.not_eq_true] at hkq
        simp [hkq, ih]

/-- `insert_loop` analogue: under the slot well-formedness invariant (an
empty key cell means a fully empty pair) the sentinel check always precedes
the user predicate, so the predicate never sees the sentinel. -/
theorem insert_loop_keq_agree (v : device_view) (eq1 eq2 : Nat → Nat → Bool)
    (p : Nat × Nat) (s : Slots) (hp : p.1 ≠ v.empty_key_sentinel)
    (hwf : ∀ q ∈ s, q.1 = v.empty_key_sentinel → q = empty_pair v)
    (hagree : ∀ a b, a ≠ v.empty_key_sentinel → b ≠ v.empty_key_sentinel →
      eq1 a b = eq2 a b) :
    ∀ (fuel i : Nat),
      insert_loop v eq1 p fuel s i = insert_loop v eq2 p fuel s i := by
  intro fuel
  induction fuel with
  | zero => intro i; rfl
  | succ f ih =>
    intro i
    rw [insert_loop, insert_loop]
    by_cases hemp : (slotAt v s i).1 = v.empty_key_sentinel
    · have hobs : slotAt v s i = empty_pair v := by
        by_cases hi : i < s.length
        · exact hwf _ (slotAt_mem v s i hi) hemp
        · exact slotAt_oob v s i (by omega)
      simp [bitwise_compare, hemp, packed_cas, hobs, empty_pair]
    · have hb : bitwise_compare (slotAt v s i).1 v.empty_key_sentinel =
          false := by
        simp [bitwise_compare, hemp]
      rw [hagree _ _ hemp hp]
      simp only [hb, Bool.not_false, Bool.true_and, Bool.false_eq_true,
        if_false]
      by_cases hkq : eq2 (slotAt v s i).1 p.1
      · simp [hkq]
      · simp only [Bool.not_eq_true] at hkq
        simp [hkq, ih]

/-- The multimap `get_size` scan counts exactly the slots whose key differs
bitwise from the empty-key sentinel. -/
theorem get_size_bitwise (ek : Nat) : ∀ (s : Slots),
    multimap_get_size ek s =
      (s.filter (fun q => !bitwise_compare q.1 ek)).length := by
  intro s
  induction s with
  | nil => rfl
  | cons a l ih =>
    unfold multimap_get_size at ih ⊢
    simp only [List.map_cons, List.filter_cons]
    by_cases h : a.1 = ek
    · simp [slot_is_filled, bitwise_compare, h, ih]
    · simp [slot_is_filled, bitwise_compare, h, ih]

/-- Claim C5: emptiness of a slot is decided by bitwise comparison against
`empty_key`, and the user key-equality predicate is never invoked with the
sentinel as either argument: for a well-formed slot array and non-sentinel
insert/query keys, `insert`, `find` and `contains` cannot distinguish two
predicates that agree away from the sentinel, and the multimap `get_size`
scan uses only the bitwise sentinel comparison. -/
theorem key_equal_sentinel_free (v : device_view) (hash : Nat → Nat)
    (s : Slots) (p : Nat × Nat) (k : Nat) (eq1 eq2 : Nat → Nat → Bool)
    (hwf : ∀ q ∈ s, q.1 = v.empty_key_sentinel → q = empty_pair v)
    (hp : p.1 ≠ v.empty_key_sentinel) (hk : k ≠ v.empty_key_sentinel)
    (hagree : ∀ a b, a ≠ v.empty_key_sentinel → b ≠ v.empty_key_sentinel →
      eq1 a b = eq2 a b) :
    device_insert v hash eq1 p s = device_insert v hash eq2 p s ∧
    device_find v hash eq1 k s = device_find v hash eq2 k s ∧
    device_contains v hash eq1 k s = device_contains v hash eq2 k s ∧
    multimap_get_size v.empty_key_sentinel s =
      (s.filter (fun q =>
        !bitwise_compare q.1 v.empty_key_sentinel)).length :=
  ⟨insert_loop_keq_agree v eq1 eq2 p s hp hwf hagree v.capacity _,
    find_loop_keq_agree v eq1 eq2 k s hk hagree v.capacity _,
    contains_loop_keq_agree v eq1 eq2 k s hk hagree v.capacity _,
    get_size_bitwise v.empty_key_sentinel s⟩

/-- Witness for C5: sentinels 0, slots `[(1,5),(0,0)]`, insert pair `(2,9)`,
query key `1`, comparing the default bitwise equality with a predicate that
additionally declares the sentinel equal to everything. -/
theorem key_equal_sentinel_free_witness :
    device_insert ⟨2, 0, 0⟩ id default_key_equal (2, 9) [(1, 5), (0, 0)] =
      device_insert ⟨2, 0, 0⟩ id
        (fun a b => (a == b) || (a == 0) || (b == 0)) (2, 9)
        [(1, 5), (0, 0)] ∧
    device_find ⟨2, 0, 0⟩ id default_key_equal 1 [(1, 5), (0, 0)] =
      device_find ⟨2, 0, 0⟩ id
        (fun a b => (a == b) || (a == 0) || (b == 0)) 1 [(1, 5), (0, 0)] ∧
    device_contains ⟨2, 0, 0⟩ id default_key_equal 1 [(1, 5), (0, 0)] =
      device_contains ⟨2, 0, 0⟩ id
        (fun a b => (a == b) || (a == 0) || (b == 0)) 1 [(1, 5), (0, 0)] ∧
    multimap_get_size 0 [(1, 5), (0, 0)] =
      (([(1, 5), (0, 0)] : Slots).filter (fun q =>
        !bitwise_compare q.1 0)).length :=
  key_equal_sentinel_free ⟨2, 0, 0⟩ id [(1, 5), (0, 0)] (2, 9) 1
    default_key_equal (fun a b => (a == b) || (a == 0) || (b == 0))
    (by decide) (by decide) (by decide)
    (by
      intro a b ha hb
      have h1 : (a == 0) = false := beq_eq_false_iff_ne.mpr ha
      have h2 : (b == 0) = false := beq_eq_false_iff_ne.mpr hb
      simp [default_key_equal, h1, h2])

/-- The find kernel writes exactly one output per probed key. -/
theorem find_outputs_length (v : device_view) (hash : Nat → Nat)
    (keq : Nat → Nat → Bool) (s : Slots) :
    ∀ (qs : List Nat) (os : List Nat),
      find_outputs v hash keq s qs = some os → os.length = qs.length := by
  intro qs
  induction qs with
  | nil =>
    intro os h
    simp only [find_outputs, Option.some.injEq] at h
    rw [← h]
  | cons k ks ih =>
    intro os h
    rw [find_outputs] at h
    split at h
    · exact Option.noConfusion h
    · rename_i r hr
      split at h
      · exact Option.noConfusion h
      · rename_i os2 hos2
        split at h <;>
          · simp only [Option.some.injEq] at h
            rw [← h]
            simp [ih os2 hos2]

/-- The contains kernel writes exactly one bool per probed key. -/
theorem contains_outputs_length (v : device_view) (hash : Nat → Nat)
    (keq : Nat → Nat → Bool) (s : Slots) :
    ∀ (qs : List Nat) (os : List Bool),
      contains_outputs v hash keq s qs = some os → os.length = qs.length := by
  intro qs
  induction qs with
  | nil =>
    intro os h
    simp only [contains_outputs, Option.some.injEq] at h
    rw [← h]
    rfl
  | cons k ks ih =>
    intro os h
    rw [contains_outputs] at h
    split at h
    · exact Option.noConfusion h
    · rename_i b hb
      split at h
      · exact Option.noConfusion h
      · rename_i os2 hos2
        simp only [Option.some.injEq] at h
        rw [← h]
        simp [ih os2 hos2]

/-- Claim C9: bulk `find` and `contains` have no side effect on the
container — whenever they return, the map (slot array and `size_`) is exactly
the input map, and the only outputs are one value (the found value or
`empty_value`) respectively one bool per probed key in the caller's output
range. -/
theorem find_contains_frame (m : static_map) (hash : Nat → Nat)
    (keq : Nat → Nat → Bool) (qs : List Nat) :
    (∀ m2 os tr, static_map_find m hash keq qs = some (m2, os, tr) →
      m2 = m ∧ os.length = qs.length) ∧
    (∀ m2 os tr, static_map_contains m hash keq qs = some (m2, os, tr) →
      m2 = m ∧ os.length = qs.length) := by
  constructor
  · intro m2 os tr h
    unfold static_map_find at h
    split at h
    · rename_i hq0
      simp only [Option.some.injEq, Prod.mk.injEq] at h
      obtain ⟨h1, h2, -⟩ := h
      refine ⟨h1.symm, ?_⟩
      rw [← h2, hq0]
      rfl
    · split at h
      · exact Option.noConfusion h
      · rename_i os2 hos2
        simp only [Option.some.injEq, Prod.mk.injEq] at h
        obtain ⟨h1, h2, -⟩ := h
        refine ⟨h1.symm, ?_⟩
        rw [← h2]
        exact find_outputs_length m.view hash keq m.slots_ qs os2 hos2
  · intro m2 os tr h
    unfold static_map_contains at h
    split at h
    · rename_i hq0
      simp only [Option.some.injEq, Prod.mk.injEq] at h
      obtain ⟨h1, h2, -⟩ := h
      refine ⟨h1.symm, ?_⟩
      rw [← h2, hq0]
      rfl
    · split at h
      · exact Option.noConfusion h
      · rename_i os2 hos2
        simp only [Option.some.injEq, Prod.mk.injEq] at h
        obtain ⟨h1, h2, -⟩ := h
        refine ⟨h1.symm, ?_⟩
        rw [← h2]
        exact contains_outputs_length m.view hash keq m.slots_ qs os2 hos2

/-- Witness for C9: a concrete two-slot map; `find`/`contains` over `[1, 2]`
return the untouched map with outputs `[5, 0]` / `[true, false]`. -/
theorem find_contains_frame_witness :
    static_map_find ⟨⟨2, 0, 0⟩, [(0, 0), (1, 5)], 1⟩ id default_key_equal
      [1, 2] = some (⟨⟨2, 0, 0⟩, [(0, 0), (1, 5)], 1⟩, [5, 0],
        [DevCmd.kernelLaunch]) ∧
    static_map_contains ⟨⟨2, 0, 0⟩, [(0, 0), (1, 5)], 1⟩ id default_key_equal
      [1, 2] = some (⟨⟨2, 0, 0⟩, [(0, 0), (1, 5)], 1⟩, [true, false],
        [DevCmd.kernelLaunch]) ∧
    ((⟨⟨2, 0, 0⟩, [(0, 0), (1, 5)], 1⟩ : static_map) =
      ⟨⟨2, 0, 0⟩, [(0, 0), (1, 5)], 1⟩ ∧
      ([5, 0] : List Nat).length = ([1, 2] : List Nat).length) ∧
    ((⟨⟨2, 0, 0⟩, [(0, 0), (1, 5)], 1⟩ : static_map) =
      ⟨⟨2, 0, 0⟩, [(0, 0), (1, 5)], 1⟩ ∧
      ([true, false] : List Bool).length = ([1, 2] : List Nat).length) :=
  ⟨by decide, by decide,
    (find_contains_frame ⟨⟨2, 0, 0⟩, [(0, 0), (1, 5)], 1⟩ id
      default_key_equal [1, 2]).1 ⟨⟨2, 0, 0⟩, [(0, 0), (1, 5)], 1⟩ [5, 0]
      [DevCmd.kernelLaunch] (by decide),
    (find_contains_frame ⟨⟨2, 0, 0⟩, [(0, 0), (1, 5)], 1⟩ id
      default_key_equal [1, 2]).2 ⟨⟨2, 0, 0⟩, [(0, 0), (1, 5)], 1⟩
      [true, false] [DevCmd.kernelLaunch] (by decide)⟩

/-- The retry loop of `back_to_back_cas` exits with the insert value stored as
soon as an observation of the value cell equals `empty_value`. -/
theorem value_cas_loop_of_mem (ev w : Nat) (vs : List Nat) (h : ev ∈ vs) :
    value_cas_loop ev w vs = some w := by
  induction vs with
  | nil => cases h
  | cons a vs ih =>
    by_cases ha : a = ev
    · simp [value_cas_loop, ha]
    · have hmem : ev ∈ vs := by
        rcases List.mem_cons.mp h with hh | hh
        · exact absurd hh.symm ha
        · exact hh
      simp [value_cas_loop, ha, ih hmem]

/-- Claim C3: in `back_to_back_cas`, when the key CAS succeeds and the value
CAS fails, the worker re-CASes the value cell with fresh expected
`empty_value` until it succeeds and then returns SUCCESS (leaving the insert
pair in the slot); when the key CAS fails and the value CAS succeeds, the
worker stores `empty_value` back into the value cell and then performs the
duplicate check on the observed key, returning DUPLICATE iff the observed key
equals the insert key under user equality, and CONTINUE otherwise. -/
theorem back_to_back_cas_state_table (ek ev k val k0 v0 : Nat)
    (vs : List Nat) (key_equal : Nat → Nat → Bool) :
    (k0 = ek → v0 ≠ ev → ev ∈ vs →
      back_to_back_cas ek ev (k, val) key_equal k0 v0 vs =
        some (insert_result.SUCCESS, some k, some val)) ∧
    (k0 ≠ ek → v0 = ev →
      back_to_back_cas ek ev (k, val) key_equal k0 v0 vs =
        some ((if key_equal k k0 then insert_result.DUPLICATE
          else insert_result.CONTINUE), none, some ev)) := by
  constructor
  · intro h1 h2 h3
    simp [back_to_back_cas, h1, h2, value_cas_loop_of_mem ev val vs h3]
  · intro h1 h2
    by_cases hk : key_equal k k0 <;> simp [back_to_back_cas, h1, h2, hk]

/-- Witness for C3 at concrete inputs: sentinels `0`, insert pair `(5, 7)`;
row (success, fail) with value-cell observations `[3, 0]`, and row
(fail, success) with observed key `9`. -/
theorem back_to_back_cas_state_table_witness :
    back_to_back_cas 0 0 (5, 7) default_key_equal 0 3 [3, 0] =
      some (insert_result.SUCCESS, some 5, some 7) ∧
    back_to_back_cas 0 0 (5, 7) default_key_equal 9 0 [] =
      some (insert_result.CONTINUE, none, some 0) :=
  ⟨(back_to_back_cas_state_table 0 0 5 7 0 3 [3, 0] default_key_equal).1
      (by decide) (by decide) (by decide),
   by
    have h := (back_to_back_cas_state_table 0 0 5 7 9 0 []
      default_key_equal).2 (by decide) rfl
    simpa [default_key_equal] using h⟩

/-- Claim C6 counterexample: `static_multimap::insert` called with an empty
input range is not a no-op — it still issues device work (a kernel launch and
a stream synchronization). -/
theorem empty_range_counterexample : multimap_insert_calls 0 ≠ [] := by
  decide

/-- Claim C6 (amended): the `static_map` bulk operations early-return on an
empty input range, issuing no device work and leaving the map (slots and
`size_`) unchanged; the `static_multimap` bulk operations perform no
empty-range check and issue their device commands even when `first == last`. -/
theorem empty_range_behavior (m : static_map) (hash : Nat → Nat)
    (keq : Nat → Nat → Bool) (pred : Nat → Bool) :
    static_map_insert m hash keq [] = some (m, 0, []) ∧
    static_map_insert_if m hash keq pred [] = some (m, 0, []) ∧
    static_map_find m hash keq [] = some (m, [], []) ∧
    static_map_contains m hash keq [] = some (m, [], []) ∧
    static_map_insert_calls 0 = [] ∧
    static_map_insert_if_calls 0 = [] ∧
    static_map_find_calls 0 = [] ∧
    static_map_contains_calls 0 = [] ∧
    multimap_insert_calls 0 = [DevCmd.kernelLaunch, DevCmd.streamSync] ∧
    multimap_insert_if_calls 0 = [DevCmd.kernelLaunch, DevCmd.streamSync] ∧
    multimap_contains_calls 0 = [DevCmd.kernelLaunch, DevCmd.streamSync] ∧
    multimap_count_calls 0 ≠ [] ∧
    multimap_count_outer_calls 0 ≠ [] ∧
    multimap_pair_count_calls 0 ≠ [] ∧
    multimap_pair_count_outer_calls 0 ≠ [] ∧
    multimap_retrieve_calls 0 ≠ [] ∧
    multimap_retrieve_outer_calls 0 ≠ [] ∧
    multimap_pair_retrieve_calls 0 ≠ [] ∧
    multimap_pair_retrieve_outer_calls 0 ≠ [] := by
  refine ⟨rfl, rfl, rfl, rfl, rfl, rfl, rfl, rfl, rfl, rfl, rfl,
    ?_, ?_, ?_, ?_, ?_, ?_, ?_, ?_⟩ <;> decide

/-- Claim C7 counterexample: `static_multimap::insert` returns no count, yet
it synchronizes the stream internally (`cudaStreamSynchronize` at the end of
static_multimap.inl's `insert`). -/
theorem sync_discipline_counterexample :
    DevCmd.streamSync ∈ multimap_insert_calls 1 := by decide

/-- Claim C7 (amended): the count-returning bulk operations (map
`insert`/`insert_if` via `size_`, multimap `count`/`pair_count`/`retrieve`/
`pair_retrieve` and outer variants) synchronize the stream internally, and
map `find`/`contains` enqueue work without synchronizing; but the multimap's
`insert`, `insert_if` and `contains` also synchronize internally although
they return no count. -/
theorem sync_discipline_amended (n : Nat) :
    DevCmd.streamSync ∉ static_map_find_calls n ∧
    DevCmd.streamSync ∉ static_map_contains_calls n ∧
    DevCmd.streamSync ∈ static_map_insert_calls (n + 1) ∧
    DevCmd.streamSync ∈ static_map_insert_if_calls (n + 1) ∧
    DevCmd.streamSync ∈ multimap_count_calls n ∧
    DevCmd.streamSync ∈ multimap_count_outer_calls n ∧
    DevCmd.streamSync ∈ multimap_pair_count_calls n ∧
    DevCmd.streamSync ∈ multimap_pair_count_outer_calls n ∧
    DevCmd.streamSync ∈ multimap_retrieve_calls n ∧
    DevCmd.streamSync ∈ multimap_retrieve_outer_calls n ∧
    DevCmd.streamSync ∈ multimap_pair_retrieve_calls n ∧
    DevCmd.streamSync ∈ multimap_pair_retrieve_outer_calls n ∧
    DevCmd.streamSync ∈ multimap_insert_calls n ∧
    DevCmd.streamSync ∈ multimap_insert_if_calls n ∧
    DevCmd.streamSync ∈ multimap_contains_calls n := by
  rcases n with _ | k <;>
    simp [static_map_find_calls, static_map_contains_calls,
      static_map_insert_calls, static_map_insert_if_calls,
      multimap_count_calls, multimap_count_outer_calls,
      multimap_pair_count_calls, multimap_pair_count_outer_calls,
      multimap_retrieve_calls, multimap_retrieve_outer_calls,
      multimap_pair_retrieve_calls, multimap_pair_retrieve_outer_calls,
      multimap_insert_calls, multimap_insert_if_calls,
      multimap_contains_calls]

/-- Claim C8: outer match count law of the multimap — for every query list,
`count_outer(Q) = count(Q)` plus the number of queries whose individual match
count is zero. -/
theorem count_outer_law (ek : Nat) (keq : Nat → Nat → Bool) (s : Slots)
    (qs : List Nat) :
    multimap_count_outer ek keq s qs =
      multimap_count ek keq s qs +
        (qs.filter (fun q => multimap_count ek keq s [q] == 0)).length := by
  have hsingle : ∀ q, multimap_count ek keq s [q] = count_single ek keq s q := by
    intro q; simp [multimap_count]
  induction qs with
  | nil => simp [multimap_count, multimap_count_outer]
  | cons q qs ih =>
    simp only [multimap_count_outer, multimap_count, List.map_cons,
      List.sum_cons, List.map_nil, List.sum_nil, Nat.add_zero,
      List.filter_cons] at ih ⊢
    by_cases h : count_single ek keq s q = 0
    · simp only [h, if_pos rfl, beq_self_eq_true, if_true, List.length_cons]
      omega
    · have hb : (count_single ek keq s q == 0) = false := by
        simpa using h
      simp only [h, if_neg h, hb, Bool.false_eq_true, if_false]
      omega

/-- Claim C10: `pair_retrieve` and `pair_retrieve_outer` advance both output
iterators by the same amount — the final value of the shared match counter —
so the probe-side and contained-side output sequences have equal length. -/
theorem pair_retrieve_equal_advance (po co c : Nat) :
    (pair_retrieve_returns po co c).1 - po = c ∧
    (pair_retrieve_returns po co c).2 - co = c ∧
    (pair_retrieve_outer_returns po co c).1 - po = c ∧
    (pair_retrieve_outer_returns po co c).2 - co = c := by
  simp [pair_retrieve_returns, pair_retrieve_outer_returns]

/-- One host `insert` call adds exactly the read-back success count to
`size_` and does not touch capacity or sentinels. -/
theorem static_map_insert_size (m : static_map) (hash : Nat → Nat)
    (keq : Nat → Nat → Bool) (ps : List (Nat × Nat)) (m1 : static_map)
    (n : Nat) (tr : List DevCmd)
    (h : static_map_insert m hash keq ps = some (m1, n, tr)) :
    m1.size_ = m.size_ + n := by
  unfold static_map_insert at h
  split at h
  · simp only [Option.some.injEq, Prod.mk.injEq] at h
    obtain ⟨h1, h2, -⟩ := h
    subst h1
    omega
  · split at h
    · exact Option.noConfusion h
    · rename_i s k heq
      simp only [Option.some.injEq, Prod.mk.injEq] at h
      obtain ⟨h1, h2, -⟩ := h
      subst h1
      simp [h2]

/-- One host `insert_if` call adds exactly the read-back success count to
`size_`. -/
theorem static_map_insert_if_size (m : static_map) (hash : Nat → Nat)
    (keq : Nat → Nat → Bool) (pred : Nat → Bool)
    (ps : List ((Nat × Nat) × Nat)) (m1 : static_map) (n : Nat)
    (tr : List DevCmd)
    (h : static_map_insert_if m hash keq pred ps = some (m1, n, tr)) :
    m1.size_ = m.size_ + n := by
  unfold static_map_insert_if at h
  split at h
  · simp only [Option.some.injEq, Prod.mk.injEq] at h
    obtain ⟨h1, h2, -⟩ := h
    subst h1
    omega
  · split at h
    · exact Option.noConfusion h
    · rename_i s k heq
      simp only [Option.some.injEq, Prod.mk.injEq] at h
      obtain ⟨h1, h2, -⟩ := h
      subst h1
      simp [h2]

/-- Claim C4: after every bulk `insert` or `insert_if` call, `size_` has been
incremented by exactly that call's SUCCESS count, so after any sequence of
bulk inserts `size_` equals its initial value plus the sum of the per-call
SUCCESS counts. -/
theorem size_accounting (hash : Nat → Nat) (keq : Nat → Nat → Bool) :
    ∀ (bs : List InsertBatch) (m m2 : static_map) (ns : List Nat),
      insert_batches hash keq m bs = some (m2, ns) →
      m2.size_ = m.size_ + ns.sum ∧ ns.length = bs.length := by
  intro bs
  induction bs with
  | nil =>
    intro m m2 ns h
    simp only [insert_batches, Option.some.injEq, Prod.mk.injEq] at h
    obtain ⟨h1, h2⟩ := h
    subst h1
    subst h2
    simp
  | cons b bs ih =>
    intro m m2 ns h
    cases b with
    | plain ps =>
      rw [insert_batches] at h
      split at h
      · exact Option.noConfusion h
      · rename_i m1 n tr heq
        split at h
        · exact Option.noConfusion h
        · rename_i m2a nsa heq2
          simp only [Option.some.injEq, Prod.mk.injEq] at h
          obtain ⟨h1, h2⟩ := h
          have hstep := static_map_insert_size m hash keq ps m1 n tr heq
          have hrest := ih m1 m2a nsa heq2
          subst h1
          subst h2
          refine ⟨?_, by simp [hrest.2]⟩
          simp only [List.sum_cons]
          omega
    | predicated ps pred =>
      rw [insert_batches] at h
      split at h
      · exact Option.noConfusion h
      · rename_i m1 n tr heq
        split at h
        · exact Option.noConfusion h
        · rename_i m2a nsa heq2
          simp only [Option.some.injEq, Prod.mk.injEq] at h
          obtain ⟨h1, h2⟩ := h
          have hstep := static_map_insert_if_size m hash keq pred ps m1 n tr heq
          have hrest := ih m1 m2a nsa heq2
          subst h1
          subst h2
          refine ⟨?_, by simp [hrest.2]⟩
          simp only [List.sum_cons]
          omega

/-- Witness for C4: two batches into a capacity-3 map with sentinels 0 —
a plain batch with a duplicate key (one SUCCESS) and a predicated batch
(one SUCCESS); `size_` ends at `0 + (1 + 1)`. -/
theorem size_accounting_witness :
    insert_batches id default_key_equal
        ⟨⟨3, 0, 0⟩, init_slots ⟨3, 0, 0⟩, 0⟩
        [InsertBatch.plain [(1, 5), (1, 6)],
          InsertBatch.predicated [((2, 7), 4)] (fun st => st == 4)] =
      some (⟨⟨3, 0, 0⟩, [(0, 0), (1, 5), (2, 7)], 2⟩, [1, 1]) ∧
    (⟨⟨3, 0, 0⟩, [(0, 0), (1, 5), (2, 7)], 2⟩ : static_map).size_ =
      (⟨⟨3, 0, 0⟩, init_slots ⟨3, 0, 0⟩, 0⟩ : static_map).size_ +
        ([1, 1] : List Nat).sum ∧
    ([1, 1] : List Nat).length =
      ([InsertBatch.plain [(1, 5), (1, 6)],
        InsertBatch.predicated [((2, 7), 4)] (fun st => st == 4)]).length :=
  ⟨by decide,
    size_accounting id default_key_equal
      [InsertBatch.plain [(1, 5), (1, 6)],
        InsertBatch.predicated [((2, 7), 4)] (fun st => st == 4)]
      ⟨⟨3, 0, 0⟩, init_slots ⟨3, 0, 0⟩, 0⟩
      ⟨⟨3, 0, 0⟩, [(0, 0), (1, 5), (2, 7)], 2⟩ [1, 1] (by decide)⟩

end Cuco
